import Mathlib

/-!
# Verification of the token-agent lifecycle engine

Shallow embedding of the core of the `token-agent` repository
(`src/cache`, `src/helpers/time.rs`, `src/resilience/retry.rs`,
`src/sources`, `src/parser/parser.rs`) in Lean 4, together with theorems
settling the behavioural claims about the token lifecycle engine.

Machine integers (`u64`, `i64`) are modelled as `Nat`/`Int` with explicit
two's-complement wrapping where the Rust code performs casts or where
overflow can occur (release-mode wrapping semantics).
-/

namespace TokenAgent

/-! ## Two's-complement helpers (`u64` / `i64` casts) -/

/-- Reinterpret a `u64` bit pattern (a natural number, reduced mod `2^64`)
as a signed `i64` value, as the Rust cast `as i64` does. -/
def toI64 (n : Nat) : Int :=
  let m : Nat := n % 2 ^ 64
  if m < 2 ^ 63 then (m : Int) else (m : Int) - 2 ^ 64

/-- Wrap an unbounded integer into the `i64` value range, as release-mode
wrapping arithmetic on `i64` does. -/
def i64Wrap (z : Int) : Int :=
  let m := z % 2 ^ 64
  if m < 2 ^ 63 then m else m - 2 ^ 64

/-- Reinterpret a signed `i64` value as a `u64` bit pattern (the Rust cast
`as u64`). -/
def toU64 (z : Int) : Nat :=
  (z % 2 ^ 64).toNat

theorem toI64_of_lt {n : Nat} (h : n < 2 ^ 63) : toI64 n = (n : Int) := by
  have h64 : n < 2 ^ 64 := lt_trans h (by norm_num)
  simp [toI64, Nat.mod_eq_of_lt h64, h]
  omega

theorem i64Wrap_of_mem {z : Int} (h1 : -(2 ^ 63) ≤ z) (h2 : z < 2 ^ 63) :
    i64Wrap z = z := by
  unfold i64Wrap
  rcases le_or_lt 0 z with hz | hz
  · have : z % 2 ^ 64 = z := Int.emod_eq_of_lt hz (by omega)
    simp only [this]
    omega
  · have : z % 2 ^ 64 = z + 2 ^ 64 := by
      have := Int.add_mul_emod_self_left (a := z) (b := (2:Int) ^ 64) (c := 1)
      rw [mul_one] at this
      rw [← this]
      exact Int.emod_eq_of_lt (by omega) (by omega)
    simp only [this]
    omega

theorem toU64_of_nonneg {z : Int} (h1 : 0 ≤ z) (h2 : z < 2 ^ 64) :
    toU64 z = z.toNat := by
  unfold toU64
  rw [Int.emod_eq_of_lt h1 h2]

/-! ## Data model: `Token`, `TokenContext` (src/cache/token.rs, token_context.rs) -/

/-- `Token` from src/cache/token.rs: a value string and an absolute expiry
(`u64` UNIX seconds, modelled as `Nat`). -/
structure Token where
  value : String
  exp_unix_ts : Nat
deriving DecidableEq, Repr

def Token.new (value : String) (exp_unix_ts : Nat) : Token :=
  ⟨value, exp_unix_ts⟩

/-- `TokenContext` from src/cache/token_context.rs. -/
structure TokenContext where
  id : String
  token : Token
  fetched_at_unix_ts : Nat
deriving DecidableEq, Repr

/-- `TokenContext::new`: `fetched_at_unix_ts` is computed as
`token.exp_unix_ts as i64 - safety_margin_seconds as i64` (wrapping `i64`
arithmetic), clamped below at `0`, then cast back to `u64`. -/
def TokenContext.new (id : String) (token : Token) (safety_margin_seconds : Nat) :
    TokenContext :=
  let fetched : Int := i64Wrap (toI64 token.exp_unix_ts - toI64 safety_margin_seconds)
  let fetched : Int := if fetched < 0 then 0 else fetched
  { id := id, token := token, fetched_at_unix_ts := fetched.toNat }

/-- `TokenContext::should_remove_at`: `(self.token.exp_unix_ts - 1) as i64`,
with the `u64` subtraction wrapping (release semantics). -/
def TokenContext.should_remove_at (c : TokenContext) : Int :=
  toI64 ((c.token.exp_unix_ts + 2 ^ 64 - 1) % 2 ^ 64)

/-- `TokenContext::should_remove`: `now as u64 >= should_remove_at() as u64`,
with `now` the current UNIX timestamp (nonnegative, passed as `Nat`). -/
def TokenContext.should_remove (c : TokenContext) (now : Nat) : Bool :=
  decide (toU64 c.should_remove_at ≤ now)

/-! ## Safety margin (src/helpers/time.rs, src/config/sources.rs) -/

def SAFETY_MARGIN_SECONDS_SOURCE_DEFAULT : Nat := 10

/-- `get_token_safety_margin_seconds`: per-source value if set, otherwise the
global settings value, otherwise the default `10`. -/
def get_token_safety_margin_seconds
    (safety_margin_seconds_settings : Option Nat)
    (safety_margin_seconds_source : Option Nat) : Nat :=
  ((safety_margin_seconds_source.or safety_margin_seconds_settings).or
    (some SAFETY_MARGIN_SECONDS_SOURCE_DEFAULT)).getD 0

/-! ## Retry engine (src/resilience/retry.rs) -/

/-- `RetrySettings` from src/resilience/retry.rs. -/
structure RetrySettings where
  attempts : Nat
  base_delay_ms : Nat
  max_delay_ms : Nat
deriving DecidableEq, Repr

/-- The `for attempt in 1..=attempts` loop of
`RetrySettings::run_with_retry`, at attempt number `attempt` with current
backoff `delay` and `remaining` loop iterations left
(`remaining = attempts + 1 − attempt` throughout).

The fallible operation is modelled as `op : Nat → Except E T`, where `op i`
is the outcome of its `i`-th invocation (1-indexed).  The result is
`some (outcome, invocations, sleeps)` where `invocations` is the number of
times `op` ran and `sleeps` the list of backoff sleeps (milliseconds) in
order; `none` models falling through the loop to the `unreachable!`
(a panic).  `delay * 2` wraps at `2^64` as release-mode `u64`
multiplication does; the updated delay is `(delay * 2).min(max_delay_ms)`. -/
def RetrySettings.runLoop {E T : Type} (s : RetrySettings) (op : Nat → Except E T) :
    Nat → Nat → Nat → Option (Except E T × Nat × List Nat)
  | 0, _, _ => none
  | Nat.succ rem, attempt, delay =>
    match op attempt with
    | Except.ok v => some (Except.ok v, attempt, [])
    | Except.error e =>
      if attempt < s.attempts then
        match s.runLoop op rem (attempt + 1) (min (delay * 2 % 2 ^ 64) s.max_delay_ms) with
        | some (r, k, sleeps) => some (r, k, delay :: sleeps)
        | none => none
      else
        some (Except.error e, attempt, [])

/-- `RetrySettings::run_with_retry`: run the loop from attempt `1` with the
initial delay `base_delay_ms`; the loop body runs at most `attempts`
times. -/
def RetrySettings.run {E T : Type} (s : RetrySettings) (op : Nat → Except E T) :
    Option (Except E T × Nat × List Nat) :=
  s.runLoop op s.attempts 1 s.base_delay_ms

/-! ## Token cache (src/cache/token_cache.rs) -/

/-- The two-level token cache `source_id → token_id → TokenContext`,
modelled as nested partial maps.  An outer `none` means the source key is
absent from the `HashMap`. -/
def Cache : Type := String → Option (String → Option TokenContext)

def Cache.empty : Cache := fun _ => none

/-- `TokenCache::get`. -/
def Cache.get (c : Cache) (source_id token_id : String) : Option TokenContext :=
  (c source_id).bind (fun m => m token_id)

/-- `TokenCache::set`: `entry(source_id).or_default()` materialises the
(possibly empty) per-source map, each supplied record is inserted or
updated under its `id` in order, and the list of touched token ids is
returned (one entry per input record, in input order). -/
def Cache.set (c : Cache) (source_id : String) (records : List TokenContext) :
    Cache × List String :=
  let m0 : String → Option TokenContext := (c source_id).getD (fun _ => none)
  let m1 := records.foldl
    (fun m r => fun tid => if tid = r.id then some r else m tid) m0
  (fun s => if s = source_id then some m1 else c s, records.map (·.id))

/-- `TokenCache::invalidate_expired_tokens_by_source_id`: retains, within the
named source, exactly the records whose `should_remove` is false; returns
whether the source key existed. -/
def Cache.invalidate_expired (c : Cache) (source_id : String) (now : Nat) :
    Cache × Bool :=
  match c source_id with
  | none => (c, false)
  | some m =>
    (fun s => if s = source_id then
        some (fun tid => (m tid).filter (fun tc => ¬ tc.should_remove now))
      else c s, true)

/-! ## Source value resolution (src/sources/fetch.rs) -/

/-- The `GenericSourceValue::Ref { source, id, prefix }` arm of
`prepare_generic_source_value`: look the token up in the cache; when a
prefix is supplied the code emits `format!("{}{}", prefix, token_context.id)`
— the prefix concatenated with the token **id** — and otherwise it emits
`token_context.token.value`. -/
def prepare_ref_value (c : Cache) (source id : String) (prefix? : Option String) :
    Except String String :=
  match c.get source id with
  | some token_context =>
    Except.ok (match prefix? with
      | some p => p ++ token_context.id
      | none => token_context.token.value)
  | none => Except.error ("token " ++ source ++ "." ++ id ++ " is absent")

/-! ## Expiry sweeper inner loop (src/sources/executor/token_invalidate.rs) -/

/-- One source's token-examination loop in `loop_check_token_exp`.

`lookups` lists, for each declared token in order, the cache lookup result.
For a present record the code lowers `sleep_until` to `should_remove_at`
when that is smaller; for an absent record it **assigns**
`now + safety_margin as i64` (wrapping) to `sleep_until` unconditionally.
After each token, if `sleep_until ≤ now`, it marks the source for removal
and breaks.  Returns the final `sleep_until` and the break flag. -/
def sweepTokens (now : Int) (margin : Nat) :
    List (Option TokenContext) → Int → Int × Bool
  | [], sleep_until => (sleep_until, false)
  | o :: rest, sleep_until =>
    let su : Int := match o with
      | some token_context =>
        if token_context.should_remove_at ≤ sleep_until then
          token_context.should_remove_at
        else sleep_until
      | none => i64Wrap (now + toI64 margin)
    if su ≤ now then (su, true) else sweepTokens now margin rest su

/-! ## Refresh loop per-source events (src/sources/executor/token_fetch.rs) -/

/-- Observable events of the refresh loop for one due source. -/
inductive RefreshEvent where
  | cacheSet (source_id : String) (records : List TokenContext)
  | publish (source_id : String)
deriving DecidableEq, Repr

/-- The tail of the per-source body of `loop_refrech_tokens` for a due
source, given the outcome of `fetch_tokens_by_source_id` (retry included):
on `Ok` the records are written through `TokenCache::set` and then the
`SinkMessage` is sent on the bus; the `tx.send` is **outside** the
`if let Ok` block, so on error the message is sent as well. -/
def processDueSource (source_id : String)
    (fetch_result : Except String (List TokenContext)) : List RefreshEvent :=
  (match fetch_result with
   | Except.ok records => [RefreshEvent.cacheSet source_id records]
   | Except.error _ => []) ++ [RefreshEvent.publish source_id]

/-- Interpret the event list against the cache model (the cache write that a
reader reacting to the notification would observe). -/
def applyEvents (c : Cache) : List RefreshEvent → Cache
  | [] => c
  | RefreshEvent.cacheSet sid rs :: rest => applyEvents (Cache.set c sid rs).1 rest
  | RefreshEvent.publish _ :: rest => applyEvents c rest

/-! ## JWT expiry extraction (src/parser/parser.rs)

`decode_jwt_from_string` uses `base64::engine::general_purpose::STANDARD_NO_PAD`:
the standard alphabet (`A-Z a-z 0-9 + /`), decoding **requires the absence of
padding** (`DecodePaddingMode::RequireNone`: a trailing `=` is rejected as an
invalid symbol) and rejects non-zero trailing bits in a final partial chunk
(`decode_allow_trailing_bits` is false by default). -/

/-- Value of one symbol of the standard base64 alphabet. -/
def b64CharVal (c : Char) : Option Nat :=
  if 'A' ≤ c ∧ c ≤ 'Z' then some (c.toNat - 65)
  else if 'a' ≤ c ∧ c ≤ 'z' then some (c.toNat - 97 + 26)
  else if '0' ≤ c ∧ c ≤ '9' then some (c.toNat - 48 + 52)
  else if c = '+' then some 62
  else if c = '/' then some 63
  else none

/-- Symbol of the standard base64 alphabet for a 6-bit value. -/
def b64ValChar (v : Nat) : Char :=
  if v < 26 then Char.ofNat (65 + v)
  else if v < 52 then Char.ofNat (97 + (v - 26))
  else if v < 62 then Char.ofNat (48 + (v - 52))
  else if v = 62 then '+'
  else '/'

/-- Unpadded standard-alphabet base64 decoding of a character list into
bytes, mirroring `STANDARD_NO_PAD.decode`: symbols are consumed four at a
time (three bytes each); a final chunk of two or three symbols yields one or
two bytes and must have zero trailing bits; a final chunk of one symbol, any
symbol outside the alphabet (including `=`), or non-zero trailing bits make
the decode fail. -/
def b64DecodeChars : List Char → Option (List Nat)
  | [] => some []
  | [_] => none
  | [a, b] => do
    let va ← b64CharVal a
    let vb ← b64CharVal b
    let n := va * 2 ^ 6 + vb
    if n % 2 ^ 4 = 0 then some [n / 2 ^ 4] else none
  | [a, b, c] => do
    let va ← b64CharVal a
    let vb ← b64CharVal b
    let vc ← b64CharVal c
    let n := va * 2 ^ 12 + vb * 2 ^ 6 + vc
    if n % 2 ^ 2 = 0 then some [n / 2 ^ 10, n / 2 ^ 2 % 2 ^ 8] else none
  | a :: b :: c :: d :: rest => do
    let va ← b64CharVal a
    let vb ← b64CharVal b
    let vc ← b64CharVal c
    let vd ← b64CharVal d
    let n := va * 2 ^ 18 + vb * 2 ^ 12 + vc * 2 ^ 6 + vd
    let bytes ← b64DecodeChars rest
    some ([n / 2 ^ 16, n / 2 ^ 8 % 2 ^ 8, n % 2 ^ 8] ++ bytes)

/-- Unpadded standard-alphabet base64 encoding of a byte list (what
`STANDARD_NO_PAD.encode` produces). -/
def b64EncodeBytes : List Nat → List Char
  | [] => []
  | [x] =>
    let n := x % 2 ^ 8 * 2 ^ 4
    [b64ValChar (n / 2 ^ 6), b64ValChar (n % 2 ^ 6)]
  | [x, y] =>
    let n := (x % 2 ^ 8 * 2 ^ 8 + y % 2 ^ 8) * 2 ^ 2
    [b64ValChar (n / 2 ^ 12), b64ValChar (n / 2 ^ 6 % 2 ^ 6), b64ValChar (n % 2 ^ 6)]
  | x :: y :: z :: rest =>
    let n := (x % 2 ^ 8) * 2 ^ 16 + (y % 2 ^ 8) * 2 ^ 8 + z % 2 ^ 8
    [b64ValChar (n / 2 ^ 18), b64ValChar (n / 2 ^ 12 % 2 ^ 6),
     b64ValChar (n / 2 ^ 6 % 2 ^ 6), b64ValChar (n % 2 ^ 6)] ++ b64EncodeBytes rest

/-- Rust `str::split('.')` on a character list: the list of (possibly empty)
segments between the dots. -/
def splitDots : List Char → List (List Char)
  | [] => [[]]
  | c :: rest =>
    if c = '.' then [] :: splitDots rest
    else
      match splitDots rest with
      | h :: t => (c :: h) :: t
      | [] => [[c]]

/-- `decode_jwt_from_string`, parameterised by the claims parser
(`serde_json::from_slice::<JwtClaims>`, which extracts the `exp` field as a
`u64` from the decoded JSON bytes; modelled abstractly as
`parseClaims : List Nat → Option Nat`): split the token on `'.'`, require
exactly three parts, base64-decode the middle part, parse the claims. -/
def decode_jwt_from_string (parseClaims : List Nat → Option Nat)
    (token_string : List Char) : Except String Nat :=
  match splitDots token_string with
  | [_, payload, _] =>
    match b64DecodeChars payload with
    | none => Except.error "base64 decode error"
    | some decoded =>
      match parseClaims decoded with
      | none => Except.error "invalid JWT payload"
      | some exp => Except.ok exp
  | _ => Except.error "invalid JWT format"

/-- `get_jwt_token_expiration`: decode the JWT and fail when `exp ≤ now`,
otherwise yield `exp` as the token's absolute expiry. -/
def get_jwt_token_expiration (parseClaims : List Nat → Option Nat) (now : Nat)
    (token_value : List Char) : Except String Nat :=
  match decode_jwt_from_string parseClaims token_value with
  | Except.error e => Except.error e
  | Except.ok exp =>
    if exp ≤ now then Except.error "JWT expired" else Except.ok exp

/-! ## DAG builder (src/sources/builder_in_order.rs)

`SourceDag::build` iterates over the keys of the source map (a `HashMap`,
whose iteration order is unspecified) and runs a depth-first visit with a
permanent-mark set (`visited`), a temporary-mark set (`temp`) and an output
list (`order`).  The map is modelled as an association list
`List (String × Option (List String))` pairing each source id with its
optional `inputs`; quantifying over association lists quantifies over the
possible `HashMap` iteration orders.  The recursion is expressed with a
fuel parameter; `DagError.fuelOut` is an artifact of the embedding, shown
unreachable for sufficient fuel below. -/

abbrev SourceMap : Type := List (String × Option (List String))

def SourceMap.keys (m : SourceMap) : List String := m.map Prod.fst

/-- The `inputs` list of source `a` (empty when `a` is absent or declares no
`inputs`), mirroring the `if let Some(src) … if let Some(inputs)` access in
`visit`. -/
def SourceMap.inputsOf (m : SourceMap) (a : String) : List String :=
  ((m.lookup a).join).getD []

/-- `b` is a direct dependency of `a`: some `inputs` entry of `a` names `b`. -/
def SourceMap.edge (m : SourceMap) (a b : String) : Prop :=
  b ∈ m.inputsOf a

instance (m : SourceMap) (a b : String) : Decidable (m.edge a b) := by
  unfold SourceMap.edge
  infer_instance

/-- Some `inputs` entry of some source names an id absent from the map. -/
def SourceMap.dangling (m : SourceMap) : Prop :=
  ∃ p ∈ m, ∃ d ∈ (p.2.getD []), d ∉ m.keys

instance (m : SourceMap) : Decidable m.dangling := by
  unfold SourceMap.dangling
  infer_instance

inductive DagError where
  | cycle (id : String)
  | unknownDep (dep : String) (key : String)
  | fuelOut
deriving DecidableEq, Repr

/-- The mutable state of the depth-first visit. -/
structure VisitSt where
  visited : List String
  temp : List String
  order : List String
deriving DecidableEq, Repr

/-- The `for dep in inputs` loop inside `visit`: each dependency is checked
for presence in the source map (failing with the dangling reference
otherwise) and then visited with `visitFn` (the recursive visit at the
enclosing recursion depth). -/
def visitDeps (m : SourceMap)
    (visitFn : String → VisitSt → Except DagError VisitSt) :
    List String → String → VisitSt → Except DagError VisitSt
  | [], _, st => Except.ok st
  | d :: rest, key, st =>
    if (m.lookup d).isNone then Except.error (DagError.unknownDep d key)
    else
      match visitFn d st with
      | Except.error e => Except.error e
      | Except.ok st' => visitDeps m visitFn rest key st'

/-- The recursive `visit` of `SourceDag::build`: skip permanently marked
keys, fail on a temporary-mark re-entry (cycle), otherwise temporarily mark
the key, process its `inputs`, then unmark, permanently mark and append the
key to the output order. -/
def visit (m : SourceMap) : Nat → String → VisitSt → Except DagError VisitSt
  | 0, _, _ => Except.error DagError.fuelOut
  | Nat.succ fuel, key, st =>
    if key ∈ st.visited then Except.ok st
    else if key ∈ st.temp then Except.error (DagError.cycle key)
    else
      let st1 : VisitSt := { st with temp := key :: st.temp }
      match visitDeps m (visit m fuel) (m.inputsOf key) key st1 with
      | Except.error e => Except.error e
      | Except.ok st2 =>
        Except.ok { st2 with
          temp := st2.temp.erase key,
          visited := key :: st2.visited,
          order := st2.order ++ [key] }

/-- The `for k in sources.keys()` loop of `SourceDag::build`. -/
def buildVisitAll (m : SourceMap) : List String → VisitSt → Except DagError VisitSt
  | [], st => Except.ok st
  | k :: ks, st =>
    match visit m (m.length + 1) k st with
    | Except.error e => Except.error e
    | Except.ok st' => buildVisitAll m ks st'

/-- `SourceDag::build`, reduced to the id order it produces (the returned
`DagNode` list pairs each id in `order` with its config and inputs). -/
def SourceDag.build (m : SourceMap) : Except DagError (List String) :=
  match buildVisitAll m m.keys ⟨[], [], []⟩ with
  | Except.error e => Except.error e
  | Except.ok st => Except.ok st.order

/-! ## Shared cache lemmas -/

theorem setFold_get_of_notin (rs : List TokenContext)
    (m : String → Option TokenContext) (tid : String)
    (h : ∀ r ∈ rs, r.id ≠ tid) :
    (rs.foldl (fun m r => fun t => if t = r.id then some r else m t) m) tid
      = m tid := by
  induction rs generalizing m with
  | nil => rfl
  | cons x xs ih =>
    simp only [List.foldl_cons]
    rw [ih _ (fun r hr => h r (List.mem_cons_of_mem x hr))]
    have hx : tid ≠ x.id := fun h' => h x (List.mem_cons_self x xs) h'.symm
    simp [hx]

theorem setFold_get_of_mem (rs : List TokenContext)
    (m : String → Option TokenContext) (r : TokenContext)
    (hmem : r ∈ rs) (hnd : rs.Pairwise (fun r1 r2 => r1.id ≠ r2.id)) :
    (rs.foldl (fun m r => fun t => if t = r.id then some r else m t) m) r.id
      = some r := by
  induction rs generalizing m with
  | nil => exact absurd hmem (List.not_mem_nil r)
  | cons x xs ih =>
    rcases List.pairwise_cons.mp hnd with ⟨hx, hxs⟩
    simp only [List.foldl_cons]
    rcases List.mem_cons.mp hmem with rfl | hmem'
    · rw [setFold_get_of_notin _ _ _ (fun y hy h' => hx y hy h'.symm)]
      simp
    · exact ih _ hmem' hxs

theorem setFold_isSome (rs : List TokenContext)
    (m : String → Option TokenContext) (tid : String)
    (h : (m tid).isSome = true) :
    ((rs.foldl (fun m r => fun t => if t = r.id then some r else m t) m) tid).isSome
      = true := by
  induction rs generalizing m with
  | nil => exact h
  | cons x xs ih =>
    simp only [List.foldl_cons]
    apply ih
    by_cases htid : tid = x.id <;> simp [htid, h]

/-! ## C1: `Ref` value resolution -/

/-- C1: the claim states that resolving `Ref{source, id, prefix}` with a
cached token yields `prefix ++ token.value`.  The code instead emits
`prefix ++ token_context.id` when a prefix is supplied: with prefix
`"Bearer "` and cached token (id `"t"`, value `"abc"`) the resolved value is
`"Bearer t"`, not `"Bearer abc"`; without a prefix the token's value alone
is produced as the claim says. -/
theorem C1_ref_prefix_emits_token_id :
    prepare_ref_value (Cache.empty.set "A" [⟨"t", ⟨"abc", 100⟩, 90⟩]).1
        "A" "t" (some "Bearer ") = Except.ok "Bearer t" ∧
    "Bearer t" ≠ "Bearer abc" ∧
    prepare_ref_value (Cache.empty.set "A" [⟨"t", ⟨"abc", 100⟩, 90⟩]).1
        "A" "t" none = Except.ok "abc" := by
  refine ⟨rfl, by decide, rfl⟩

/-! ## C2: refetch deadline arithmetic -/

/-- C2 (amended): for every `TokenRecord` constructed with expiry `e` and
effective safety margin `m` (per-source if set, otherwise global settings,
otherwise 10), **provided `e < 2^63` and `m < 2^63`** so that the `i64`
casts in `TokenContext::new` do not wrap, the stored refetch deadline
equals `max(0, e − m)` and hence is at most `e`. -/
theorem C2_refetch_deadline (id value : String) (e : Nat)
    (settings source : Option Nat)
    (he : e < 2 ^ 63)
    (hm : get_token_safety_margin_seconds settings source < 2 ^ 63) :
    get_token_safety_margin_seconds settings source
        = source.getD (settings.getD SAFETY_MARGIN_SECONDS_SOURCE_DEFAULT) ∧
    (TokenContext.new id (Token.new value e)
        (get_token_safety_margin_seconds settings source)).fetched_at_unix_ts
      = e - get_token_safety_margin_seconds settings source ∧
    (TokenContext.new id (Token.new value e)
        (get_token_safety_margin_seconds settings source)).fetched_at_unix_ts
      ≤ e := by
  set mar := get_token_safety_margin_seconds settings source with hmar
  have hmargin : mar = source.getD (settings.getD SAFETY_MARGIN_SECONDS_SOURCE_DEFAULT) := by
    rw [hmar]
    cases source <;> cases settings <;>
      simp [get_token_safety_margin_seconds, Option.or, Option.getD]
  have hfetch : (TokenContext.new id (Token.new value e) mar).fetched_at_unix_ts
      = e - mar := by
    simp only [TokenContext.new, Token.new]
    rw [toI64_of_lt he, toI64_of_lt hm]
    rw [i64Wrap_of_mem (by omega) (by omega)]
    split <;> rename_i hcond <;> omega
  exact ⟨hmargin, hfetch, by rw [hfetch]; omega⟩

/-- C2 witness: expiry 100, per-source margin 7 (settings absent). -/
theorem C2_refetch_deadline_witness :
    get_token_safety_margin_seconds none (some 7)
        = (some 7).getD ((none : Option Nat).getD SAFETY_MARGIN_SECONDS_SOURCE_DEFAULT) ∧
    (TokenContext.new "t" (Token.new "v" 100)
        (get_token_safety_margin_seconds none (some 7))).fetched_at_unix_ts
      = 100 - get_token_safety_margin_seconds none (some 7) ∧
    (TokenContext.new "t" (Token.new "v" 100)
        (get_token_safety_margin_seconds none (some 7))).fetched_at_unix_ts
      ≤ 100 :=
  C2_refetch_deadline "t" "v" 100 none (some 7) (by decide) (by decide)

/-- C2 counterexample: at expiry `e = 2^63` with per-source margin `0` the
cast `e as i64` wraps negative, so the stored deadline is `0` instead of
`max(0, e − 0) = 2^63`; and with expiry `0` and per-source margin `2^63 + 1`
the stored deadline is `2^63 − 1 > 0 = e`, violating `refetch_at ≤ expiry`. -/
theorem C2_refetch_deadline_cex :
    (TokenContext.new "t" (Token.new "v" (2 ^ 63))
        (get_token_safety_margin_seconds none (some 0))).fetched_at_unix_ts
      ≠ max 0 (2 ^ 63 - get_token_safety_margin_seconds none (some 0)) ∧
    ¬ (TokenContext.new "t" (Token.new "v" 0)
        (get_token_safety_margin_seconds none (some (2 ^ 63 + 1)))).fetched_at_unix_ts
      ≤ 0 :=
  ⟨by decide, by decide⟩

/-! ## C9: eviction deadline arithmetic -/

/-- C9 (amended): for every `TokenContext` whose expiry `e` satisfies
`1 ≤ e` **and `e ≤ 2^63`** (so the `as i64` cast of the `u64` difference
does not wrap negative), `should_remove_at` equals `e − 1` and
`should_remove(now)` holds exactly when `now ≥ e − 1`; the unsigned
subtraction makes `e ≥ 1` a genuine precondition, and for `e = 0` the
wrapped threshold `2^64 − 1` makes `should_remove` false for any realistic
`now` (the record is never evicted). -/
theorem C9_should_remove_at (c : TokenContext) (now : Nat)
    (h1 : 1 ≤ c.token.exp_unix_ts) (h2 : c.token.exp_unix_ts ≤ 2 ^ 63) :
    c.should_remove_at = (c.token.exp_unix_ts : Int) - 1 ∧
    (c.should_remove now = true ↔ c.token.exp_unix_ts - 1 ≤ now) ∧
    (∀ id value fetched now',
      (TokenContext.mk id (Token.new value 0) fetched).should_remove now' = true
        ↔ 2 ^ 64 - 1 ≤ now') := by
  have hmod : (c.token.exp_unix_ts + 2 ^ 64 - 1) % 2 ^ 64 = c.token.exp_unix_ts - 1 := by
    have : c.token.exp_unix_ts + 2 ^ 64 - 1 = (c.token.exp_unix_ts - 1) + 1 * 2 ^ 64 := by
      omega
    rw [this, Nat.add_mul_mod_self_right]
    exact Nat.mod_eq_of_lt (by omega)
  have hrem : c.should_remove_at = (c.token.exp_unix_ts : Int) - 1 := by
    unfold TokenContext.should_remove_at
    rw [hmod, toI64_of_lt (by omega)]
    omega
  refine ⟨hrem, ?_, ?_⟩
  · unfold TokenContext.should_remove
    rw [hrem]
    rw [toU64_of_nonneg (by omega) (by omega)]
    simp only [decide_eq_true_eq]
    omega
  · intro id value fetched now'
    unfold TokenContext.should_remove TokenContext.should_remove_at
    simp only [Token.new, decide_eq_true_eq]
    norm_num [toI64, toU64]

/-- C9 witness: expiry 5 — `should_remove_at = 4`, removal exactly from
`now = 4` on. -/
theorem C9_should_remove_at_witness :
    (TokenContext.mk "t" (Token.new "v" 5) 0).should_remove_at = ((5 : Nat) : Int) - 1 ∧
    ((TokenContext.mk "t" (Token.new "v" 5) 0).should_remove 4 = true ↔ 5 - 1 ≤ 4) ∧
    (∀ id value fetched now',
      (TokenContext.mk id (Token.new value 0) fetched).should_remove now' = true
        ↔ 2 ^ 64 - 1 ≤ now') :=
  C9_should_remove_at (TokenContext.mk "t" (Token.new "v" 5) 0) 4
    (by decide) (by decide)

/-- C9 counterexample: at expiry `2^63 + 1 ≥ 1` the `as i64` cast wraps, so
`should_remove_at` is `−2^63`, not `expiry − 1 = 2^63`. -/
theorem C9_should_remove_at_cex :
    1 ≤ (2 ^ 63 + 1 : Nat) ∧
    (TokenContext.mk "t" (Token.new "v" (2 ^ 63 + 1)) 0).should_remove_at
      ≠ ((2 ^ 63 + 1 : Nat) : Int) - 1 := by
  constructor
  · norm_num
  · decide

/-! ## C7: sweeper wake deadline -/

/-- C7 (amended): in a sweeper pass, a **present** token lowers the tracked
deadline to `min(tracked, expiry − 1)`, but an **absent** token overwrites
the tracked deadline with `now + effective safety margin` unconditionally
(no `min`): when all examined lookups are present (and no eviction break
triggers) the final deadline is the running minimum of the `should_remove_at`
deadlines, and when the last examined lookup is absent the final deadline is
exactly `now + margin`, an absent token can therefore *increase* a smaller
deadline already tracked. -/
theorem sweepTokens_nil (now : Int) (mar : Nat) (init : Int) :
    sweepTokens now mar [] init = (init, false) := rfl

theorem sweepTokens_cons_some (now : Int) (mar : Nat) (tc : TokenContext)
    (rest : List (Option TokenContext)) (init : Int) :
    sweepTokens now mar (some tc :: rest) init
      = (if (if tc.should_remove_at ≤ init then tc.should_remove_at else init) ≤ now
          then ((if tc.should_remove_at ≤ init then tc.should_remove_at else init), true)
          else sweepTokens now mar rest
            (if tc.should_remove_at ≤ init then tc.should_remove_at else init)) := rfl

theorem sweepTokens_cons_none (now : Int) (mar : Nat)
    (rest : List (Option TokenContext)) (init : Int) :
    sweepTokens now mar (none :: rest) init
      = (if i64Wrap (now + toI64 mar) ≤ now
          then (i64Wrap (now + toI64 mar), true)
          else sweepTokens now mar rest (i64Wrap (now + toI64 mar))) := rfl

theorem C7_sweeper_wake (settings source : Option Nat) (now : Int)
    (lookups : List (Option TokenContext)) (init : Int) :
    ((∀ o ∈ lookups, ∃ tc, o = some tc ∧ now < tc.should_remove_at) → now < init →
      sweepTokens now (get_token_safety_margin_seconds settings source) lookups init
        = (lookups.foldl
            (fun acc o => match o with
              | some tc => min acc tc.should_remove_at
              | none => acc) init, false)) ∧
    (∀ l', lookups = l' ++ [none] →
      (sweepTokens now (get_token_safety_margin_seconds settings source) lookups init).2
        = false →
      (sweepTokens now (get_token_safety_margin_seconds settings source) lookups init).1
        = i64Wrap (now + toI64 (get_token_safety_margin_seconds settings source))) := by
  set mar := get_token_safety_margin_seconds settings source with hmar
  constructor
  · intro hpres hinit
    induction lookups generalizing init with
    | nil => rfl
    | cons o rest ih =>
      rcases hpres o (List.mem_cons_self o rest) with ⟨tc, rfl, htc⟩
      have hmin : (if tc.should_remove_at ≤ init then tc.should_remove_at else init)
          = min init tc.should_remove_at := by
        rw [min_comm, min_def]
      rw [sweepTokens_cons_some, hmin, if_neg (not_le.mpr (lt_min hinit htc)),
        List.foldl_cons]
      exact ih _ (fun o ho => hpres o (List.mem_cons_of_mem _ ho)) (lt_min hinit htc)
  · rintro l' rfl
    induction l' generalizing init with
    | nil =>
      intro hflag
      rw [List.nil_append, sweepTokens_cons_none] at hflag ⊢
      by_cases hbr : i64Wrap (now + toI64 mar) ≤ now
      · rw [if_pos hbr] at hflag
        simp at hflag
      · rw [if_neg hbr]
        rfl
    | cons o rest ih =>
      intro hflag
      rw [List.cons_append] at hflag ⊢
      cases o with
      | some tc =>
        rw [sweepTokens_cons_some] at hflag ⊢
        by_cases hbr : (if tc.should_remove_at ≤ init then tc.should_remove_at else init) ≤ now
        · rw [if_pos hbr] at hflag
          simp at hflag
        · rw [if_neg hbr] at hflag ⊢
          exact ih _ hflag
      | none =>
        rw [sweepTokens_cons_none] at hflag ⊢
        by_cases hbr : i64Wrap (now + toI64 mar) ≤ now
        · rw [if_pos hbr] at hflag
          simp at hflag
        · rw [if_neg hbr] at hflag ⊢
          exact ih _ hflag

/-- C7 witness: one present token with deadline 105, initial deadline
`i64::MAX`, `now = 100`, default margin — the tracked deadline is the
minimum, 105. -/
theorem C7_sweeper_wake_witness :
    sweepTokens 100 (get_token_safety_margin_seconds none none)
        [some ⟨"t", ⟨"v", 106⟩, 0⟩] (2 ^ 63 - 1)
      = (([some ⟨"t", ⟨"v", 106⟩, 0⟩] : List (Option TokenContext)).foldl
          (fun acc o => match o with
            | some tc => min acc tc.should_remove_at
            | none => acc) (2 ^ 63 - 1), false) :=
  (C7_sweeper_wake none none 100 [some ⟨"t", ⟨"v", 106⟩, 0⟩] (2 ^ 63 - 1)).1
    (by intro o ho
        refine ⟨⟨"t", ⟨"v", 106⟩, 0⟩, ?_, by decide⟩
        simpa using ho)
    (by decide)

/-- C7 counterexample: with `now = 100`, default margin 10, a present token
with eviction deadline 105 followed by an absent token: the tracked deadline
after the present token is 105, but the absent token overwrites it with
`now + margin = 110 > 105` — examining an additional absent token increased
a smaller deadline already tracked (the claimed minimum would be 105). -/
theorem C7_sweeper_wake_cex :
    sweepTokens 100 (get_token_safety_margin_seconds none none)
        [some ⟨"t", ⟨"v", 106⟩, 0⟩] (2 ^ 63 - 1) = (105, false) ∧
    sweepTokens 100 (get_token_safety_margin_seconds none none)
        [some ⟨"t", ⟨"v", 106⟩, 0⟩, none] (2 ^ 63 - 1) = (110, false) ∧
    (105 : Int) < 110 := by
  exact ⟨by decide, by decide, by decide⟩

/-! ## C8: refresh-loop notification -/

/-- C8 (amended): for every due source the refresh loop publishes
`SourceChanged(source_id)` as the **last** step of the per-source body —
after the fetched records have been written to the cache via `set` when the
fetch succeeded, so a reader reacting to the notification observes the new
records — but the publish also happens on ultimate retry failure (the
`tx.send` is outside the `if let Ok` block), not only on success. -/
theorem C8_notify_after_set (source_id : String)
    (res : Except String (List TokenContext)) (c0 : Cache) :
    (processDueSource source_id res).getLast?
        = some (RefreshEvent.publish source_id) ∧
    (∀ records, res = Except.ok records →
      processDueSource source_id res
          = [RefreshEvent.cacheSet source_id records,
             RefreshEvent.publish source_id] ∧
      (records.Pairwise (fun r1 r2 => r1.id ≠ r2.id) → ∀ r ∈ records,
        (applyEvents c0 [RefreshEvent.cacheSet source_id records]).get
            source_id r.id = some r)) ∧
    (∀ e, res = Except.error e →
      processDueSource source_id res = [RefreshEvent.publish source_id]) := by
  refine ⟨?_, ?_, ?_⟩
  · cases res <;> rfl
  · rintro records rfl
    refine ⟨rfl, ?_⟩
    intro hnd r hr
    show ((Cache.set c0 source_id records).1).get source_id r.id = some r
    unfold Cache.set Cache.get
    simp only [if_pos rfl, Option.bind_some]
    exact setFold_get_of_mem records _ r hr hnd
  · rintro e rfl
    rfl

/-- C8 witness: a successful fetch of one record — the trace is
`[cacheSet, publish]` and the cache seen at publish time contains the
record. -/
theorem C8_notify_after_set_witness :
    processDueSource "s" (Except.ok [⟨"t", ⟨"abc", 100⟩, 90⟩])
        = [RefreshEvent.cacheSet "s" [⟨"t", ⟨"abc", 100⟩, 90⟩],
           RefreshEvent.publish "s"] ∧
    (applyEvents Cache.empty
        [RefreshEvent.cacheSet "s" [⟨"t", ⟨"abc", 100⟩, 90⟩]]).get "s" "t"
      = some ⟨"t", ⟨"abc", 100⟩, 90⟩ := by
  have h := (C8_notify_after_set "s" (Except.ok [⟨"t", ⟨"abc", 100⟩, 90⟩])
    Cache.empty).2.1 [⟨"t", ⟨"abc", 100⟩, 90⟩] rfl
  exact ⟨h.1, h.2 (by simp) ⟨"t", ⟨"abc", 100⟩, 90⟩ (by simp)⟩

/-- C8 counterexample: on ultimate retry failure the notification **is**
published — the per-source trace on a fetch error is exactly
`[publish source_id]`, contradicting "no notification is published for that
source". -/
theorem C8_notify_after_set_cex :
    processDueSource "s" (Except.error "retry failure")
      = [RefreshEvent.publish "s"] := rfl

/-! ## C3: cache `set` semantics -/

/-- C3 (amended): for every cache state, source id `s` and record list `rs`
**whose token ids are pairwise distinct** (as the config validator
guarantees for parsed sources), after `TokenCache::set(s, rs)`: every record
of `rs` is retrievable under `s` by its id; records under `s` whose id is
not among `rs`'s ids are unchanged; other sources are untouched; the
returned list is exactly the ids of `rs`; and no previously present record
is removed.  (For duplicated ids the last record wins — see the
counterexample.) -/
theorem get_set_self (c : Cache) (s : String) (rs : List TokenContext) (tid : String) :
    (c.set s rs).1.get s tid
      = (rs.foldl (fun m r => fun t => if t = r.id then some r else m t)
          ((c s).getD (fun _ => none))) tid := by
  unfold Cache.set Cache.get
  simp

theorem C3_cache_set (c : Cache) (s : String) (rs : List TokenContext)
    (hids : rs.Pairwise (fun r1 r2 => r1.id ≠ r2.id)) :
    (∀ r ∈ rs, (c.set s rs).1.get s r.id = some r) ∧
    (∀ tid, (∀ r ∈ rs, r.id ≠ tid) → (c.set s rs).1.get s tid = c.get s tid) ∧
    (∀ s', s' ≠ s → (c.set s rs).1 s' = c s') ∧
    (c.set s rs).2 = rs.map (·.id) ∧
    (∀ tid, (c.get s tid).isSome = true → ((c.set s rs).1.get s tid).isSome = true) := by
  refine ⟨?_, ?_, ?_, rfl, ?_⟩
  · intro r hr
    rw [get_set_self]
    exact setFold_get_of_mem rs _ r hr hids
  · intro tid hnot
    rw [get_set_self, setFold_get_of_notin rs _ tid hnot]
    unfold Cache.get
    cases hc : c s <;> simp
  · intro s' hs'
    unfold Cache.set
    simp only [if_neg hs']
  · intro tid hsome
    rw [get_set_self]
    apply setFold_isSome
    unfold Cache.get at hsome
    cases hc : c s with
    | none => rw [hc] at hsome; simp at hsome
    | some mm => rw [hc] at hsome; simpa using hsome

/-- C3 witness: storing one record in the empty cache. -/
theorem C3_cache_set_witness :
    (Cache.empty.set "A" [⟨"t", ⟨"abc", 100⟩, 90⟩]).1.get "A" "t"
      = some ⟨"t", ⟨"abc", 100⟩, 90⟩ :=
  (C3_cache_set Cache.empty "A" [⟨"t", ⟨"abc", 100⟩, 90⟩] (by simp)).1
    ⟨"t", ⟨"abc", 100⟩, 90⟩ (by simp)

/-- C3 counterexample: with two records sharing id `"t"`, the first supplied
record is **not** present after `set` (the second overwrote it), so "every
record in `rs` is present under `s` keyed by its token id" fails as stated
for arbitrary `rs`. -/
theorem C3_cache_set_cex :
    ¬ (∀ r ∈ [(⟨"t", ⟨"abc", 100⟩, 90⟩ : TokenContext), ⟨"t", ⟨"xyz", 200⟩, 190⟩],
        (Cache.empty.set "A"
            [(⟨"t", ⟨"abc", 100⟩, 90⟩ : TokenContext),
             ⟨"t", ⟨"xyz", 200⟩, 190⟩]).1.get "A" r.id = some r) := by
  intro h
  have h1 := h ⟨"t", ⟨"abc", 100⟩, 90⟩ (by simp)
  have h2 : (Cache.empty.set "A"
      [(⟨"t", ⟨"abc", 100⟩, 90⟩ : TokenContext), ⟨"t", ⟨"xyz", 200⟩, 190⟩]).1.get "A" "t"
      = some ⟨"t", ⟨"xyz", 200⟩, 190⟩ := by decide
  rw [h2] at h1
  exact absurd (Option.some.inj h1) (by decide)

/-! ## Retry lemmas (C4, C10) -/

theorem retry_delay_step (s : RetrySettings)
    (_hbM : s.base_delay_ms ≤ s.max_delay_ms) (hM : s.max_delay_ms < 2 ^ 63)
    (a : Nat) (ha : 1 ≤ a) :
    min ((min (s.base_delay_ms * 2 ^ (a - 1)) s.max_delay_ms) * 2 % 2 ^ 64)
        s.max_delay_ms
      = min (s.base_delay_ms * 2 ^ a) s.max_delay_ms := by
  have hx : min (s.base_delay_ms * 2 ^ (a - 1)) s.max_delay_ms ≤ s.max_delay_ms :=
    min_le_right _ _
  have hlt : (min (s.base_delay_ms * 2 ^ (a - 1)) s.max_delay_ms) * 2 < 2 ^ 64 := by
    have : s.max_delay_ms * 2 < 2 ^ 64 := by omega
    omega
  rw [Nat.mod_eq_of_lt hlt]
  have hpow : 2 ^ a = 2 ^ (a - 1) * 2 := by
    conv_lhs => rw [show a = (a - 1) + 1 by omega]
    rw [pow_succ]
  rcases le_total (s.base_delay_ms * 2 ^ (a - 1)) s.max_delay_ms with h | h
  · rw [min_eq_left h, hpow, ← mul_assoc]
  · rw [min_eq_right h]
    have h1 : s.max_delay_ms ≤ s.max_delay_ms * 2 := by omega
    have h2 : s.max_delay_ms ≤ s.base_delay_ms * 2 ^ a := by
      calc s.max_delay_ms ≤ s.base_delay_ms * 2 ^ (a - 1) := h
        _ ≤ s.base_delay_ms * 2 ^ a := by
          apply Nat.mul_le_mul_left
          exact Nat.pow_le_pow_right (by norm_num) (by omega)
    rw [min_eq_right h1, min_eq_right h2]

theorem runLoop_success {E T : Type} (s : RetrySettings) (op : Nat → Except E T)
    (hbM : s.base_delay_ms ≤ s.max_delay_ms) (hM : s.max_delay_ms < 2 ^ 63) :
    ∀ n a k v, 1 ≤ a → a + n = k → k ≤ s.attempts → op k = Except.ok v →
    (∀ i, a ≤ i → i < k → ∃ e, op i = Except.error e) →
    s.runLoop op (s.attempts + 1 - a) a
        (min (s.base_delay_ms * 2 ^ (a - 1)) s.max_delay_ms)
      = some (Except.ok v, k, (List.range n).map
          (fun j => min (s.base_delay_ms * 2 ^ (a - 1 + j)) s.max_delay_ms)) := by
  intro n
  induction n with
  | zero =>
    intro a k v ha hak hk hop _
    have hka : k = a := by omega
    subst hka
    have hrem : s.attempts + 1 - k = Nat.succ (s.attempts - k) := by omega
    rw [hrem]
    simp [RetrySettings.runLoop, hop]
  | succ n ih =>
    intro a k v ha hak hk hop hfail
    rcases hfail a le_rfl (by omega) with ⟨e, he⟩
    have haA : a < s.attempts := by omega
    have hrem : s.attempts + 1 - a = Nat.succ (s.attempts + 1 - (a + 1)) := by omega
    have hih := ih (a + 1) k v (by omega) (by omega) hk hop
      (fun i h1 h2 => hfail i (by omega) h2)
    rw [Nat.add_sub_cancel] at hih
    rw [hrem]
    simp only [RetrySettings.runLoop, he, if_pos haA,
      retry_delay_step s hbM hM a ha, hih]
    rw [List.range_succ_eq_map, List.map_cons, List.map_map]
    have hmap : ∀ j ∈ List.range n,
        ((fun j => min (s.base_delay_ms * 2 ^ (a - 1 + j)) s.max_delay_ms) ∘ Nat.succ) j
          = (fun j => min (s.base_delay_ms * 2 ^ (a + j)) s.max_delay_ms) j := by
      intro j _
      simp only [Function.comp]
      have hexp : a - 1 + Nat.succ j = a + j := by omega
      rw [hexp]
    rw [List.map_congr_left hmap]
    norm_num

theorem runLoop_allfail {E T : Type} (s : RetrySettings) (op : Nat → Except E T)
    (hbM : s.base_delay_ms ≤ s.max_delay_ms) (hM : s.max_delay_ms < 2 ^ 63) :
    ∀ n a, 1 ≤ a → a + n = s.attempts →
    (∀ i, a ≤ i → i ≤ s.attempts → ∃ e, op i = Except.error e) →
    ∃ e, op s.attempts = Except.error e ∧
      s.runLoop op (s.attempts + 1 - a) a
          (min (s.base_delay_ms * 2 ^ (a - 1)) s.max_delay_ms)
        = some (Except.error e, s.attempts, (List.range n).map
            (fun j => min (s.base_delay_ms * 2 ^ (a - 1 + j)) s.max_delay_ms)) := by
  intro n
  induction n with
  | zero =>
    intro a ha hak hfail
    have hka : s.attempts = a := by omega
    rcases hfail a le_rfl (by omega) with ⟨e, he⟩
    refine ⟨e, by rw [hka]; exact he, ?_⟩
    have hrem : s.attempts + 1 - a = Nat.succ (s.attempts - a) := by omega
    rw [hrem]
    simp [RetrySettings.runLoop, he, hka]
  | succ n ih =>
    intro a ha hak hfail
    rcases hfail a le_rfl (by omega) with ⟨e, he⟩
    have haA : a < s.attempts := by omega
    rcases ih (a + 1) (by omega) (by omega) (fun i h1 h2 => hfail i (by omega) h2)
      with ⟨efin, hefin, hrec⟩
    refine ⟨efin, hefin, ?_⟩
    have hrem : s.attempts + 1 - a = Nat.succ (s.attempts + 1 - (a + 1)) := by omega
    rw [Nat.add_sub_cancel] at hrec
    rw [hrem]
    simp only [RetrySettings.runLoop, he, if_pos haA,
      retry_delay_step s hbM hM a ha, hrec]
    rw [List.range_succ_eq_map, List.map_cons, List.map_map]
    have hmap : ∀ j ∈ List.range n,
        ((fun j => min (s.base_delay_ms * 2 ^ (a - 1 + j)) s.max_delay_ms) ∘ Nat.succ) j
          = (fun j => min (s.base_delay_ms * 2 ^ (a + j)) s.max_delay_ms) j := by
      intro j _
      simp only [Function.comp]
      have hexp : a - 1 + Nat.succ j = a + j := by omega
      rw [hexp]
    rw [List.map_congr_left hmap]
    norm_num

theorem runLoop_shape {E T : Type} (s : RetrySettings) (op : Nat → Except E T)
    (hbM : s.base_delay_ms ≤ s.max_delay_ms) (hM : s.max_delay_ms < 2 ^ 63) :
    ∀ n a, 1 ≤ a → n = s.attempts + 1 - a → ∀ r k sleeps,
    s.runLoop op n a (min (s.base_delay_ms * 2 ^ (a - 1)) s.max_delay_ms)
        = some (r, k, sleeps) →
    a ≤ k ∧ k ≤ s.attempts ∧ sleeps = (List.range (k - a)).map
        (fun j => min (s.base_delay_ms * 2 ^ (a - 1 + j)) s.max_delay_ms) := by
  intro n
  induction n with
  | zero =>
    intro a ha hn r k sleeps h
    exact absurd h (by simp [RetrySettings.runLoop])
  | succ rem ih =>
    intro a ha hn r k sleeps h
    have haA : a ≤ s.attempts := by omega
    rcases hop : op a with e | v
    case ok =>
      simp only [RetrySettings.runLoop, hop] at h
      rcases h with ⟨rfl, rfl, rfl⟩
      refine ⟨le_rfl, haA, by simp⟩
    case error =>
      by_cases hlt : a < s.attempts
      · simp only [RetrySettings.runLoop, hop, if_pos hlt,
          retry_delay_step s hbM hM a ha] at h
        rcases hrec : s.runLoop op rem (a + 1)
            (min (s.base_delay_ms * 2 ^ a) s.max_delay_ms) with _ | ⟨r', k', sl'⟩
        · rw [hrec] at h
          simp at h
        · rw [hrec] at h
          have hrec' : s.runLoop op rem (a + 1)
              (min (s.base_delay_ms * 2 ^ (a + 1 - 1)) s.max_delay_ms)
              = some (r', k', sl') := by
            rw [Nat.add_sub_cancel]
            exact hrec
          rcases ih (a + 1) (by omega) (by omega) r' k' sl' hrec' with ⟨h1, h2, h3⟩
          simp only [Option.some.injEq, Prod.mk.injEq] at h
          rcases h with ⟨rfl, rfl, rfl⟩
          refine ⟨by omega, h2, ?_⟩
          rw [Nat.add_sub_cancel] at h3
          rw [h3]
          have hk : k' - a = (k' - (a + 1)) + 1 := by omega
          rw [hk, List.range_succ_eq_map, List.map_cons, List.map_map]
          have hmap : ∀ j ∈ List.range (k' - (a + 1)),
              ((fun j => min (s.base_delay_ms * 2 ^ (a - 1 + j)) s.max_delay_ms)
                ∘ Nat.succ) j
                = (fun j => min (s.base_delay_ms * 2 ^ (a + j)) s.max_delay_ms) j := by
            intro j _
            simp only [Function.comp]
            have hexp : a - 1 + Nat.succ j = a + j := by omega
            rw [hexp]
          rw [List.map_congr_left hmap]
          norm_num
      · simp only [RetrySettings.runLoop, hop, if_neg hlt] at h
        rcases h with ⟨rfl, rfl, rfl⟩
        refine ⟨le_rfl, haA, by simp⟩

theorem sum_range_map_le (f : Nat → Nat) :
    ∀ n m, n ≤ m → ((List.range n).map f).sum ≤ ((List.range m).map f).sum := by
  intro n m h
  induction m with
  | zero =>
    have : n = 0 := by omega
    simp [this]
  | succ m ih =>
    rcases Nat.lt_succ_iff_lt_or_eq.mp (Nat.lt_succ_of_le h) with h' | rfl
    · calc ((List.range n).map f).sum ≤ ((List.range m).map f).sum := ih (by omega)
        _ ≤ ((List.range (m + 1)).map f).sum := by
            rw [List.range_succ, List.map_append, List.sum_append]
            omega
    · exact le_rfl

/-! ## C4: retry behaviour -/

/-- C4: for retry settings with `attempts ≥ 1` satisfying the documented
invariant `base_delay_ms ≤ max_delay_ms` (and `max_delay_ms < 2^63` so the
`u64` delay doubling cannot wrap): an operation first succeeding on attempt
`k ≤ attempts` is invoked exactly `k` times and its success is returned; an
operation failing on every attempt is invoked exactly `attempts` times and
the final error is returned; the sleep before the `i`-th retry is
`min(base_delay_ms · 2^(i−1), max_delay_ms)` (the list below maps `j = i−1`
over `0 .. k−2`), and the total sleep of any run is bounded by
`Σ_{i < attempts−1} min(base · 2^i, max)`. -/
theorem C4_retry_behaviour {E T : Type} (s : RetrySettings) (op : Nat → Except E T)
    (hA : 1 ≤ s.attempts) (hbM : s.base_delay_ms ≤ s.max_delay_ms)
    (hM : s.max_delay_ms < 2 ^ 63) :
    (∀ k v, 1 ≤ k → k ≤ s.attempts → op k = Except.ok v →
      (∀ i, 1 ≤ i → i < k → ∃ e, op i = Except.error e) →
      s.run op = some (Except.ok v, k, (List.range (k - 1)).map
        (fun j => min (s.base_delay_ms * 2 ^ j) s.max_delay_ms))) ∧
    ((∀ i, 1 ≤ i → i ≤ s.attempts → ∃ e, op i = Except.error e) →
      ∃ e, op s.attempts = Except.error e ∧
        s.run op = some (Except.error e, s.attempts, (List.range (s.attempts - 1)).map
          (fun j => min (s.base_delay_ms * 2 ^ j) s.max_delay_ms))) ∧
    (∀ r k sleeps, s.run op = some (r, k, sleeps) →
      sleeps.sum ≤ ((List.range (s.attempts - 1)).map
        (fun j => min (s.base_delay_ms * 2 ^ j) s.max_delay_ms)).sum) := by
  have hrun : s.run op = s.runLoop op (s.attempts + 1 - 1) 1
      (min (s.base_delay_ms * 2 ^ (1 - 1)) s.max_delay_ms) := by
    unfold RetrySettings.run
    rw [Nat.add_sub_cancel]
    norm_num [min_eq_left hbM]
  have hone : ∀ (g : Nat → Nat), (fun j => g (1 - 1 + j)) = (fun j => g j) := by
    intro g
    funext j
    norm_num
  refine ⟨?_, ?_, ?_⟩
  · intro k v hk1 hkA hop hfail
    have h := runLoop_success s op hbM hM (k - 1) 1 k v le_rfl (by omega) hkA hop
      (fun i h1 h2 => hfail i h1 h2)
    rw [hrun, h]
    norm_num
  · intro hfail
    rcases runLoop_allfail s op hbM hM (s.attempts - 1) 1 le_rfl (by omega) hfail
      with ⟨e, he, h⟩
    refine ⟨e, he, ?_⟩
    rw [hrun, h]
    norm_num
  · intro r k sleeps h
    rw [hrun] at h
    rcases runLoop_shape s op hbM hM (s.attempts + 1 - 1) 1 le_rfl rfl r k sleeps h
      with ⟨h1, h2, h3⟩
    rw [h3]
    have := sum_range_map_le
      (fun j => min (s.base_delay_ms * 2 ^ (1 - 1 + j)) s.max_delay_ms)
      (k - 1) (s.attempts - 1) (by omega)
    calc ((List.range (k - 1)).map
          (fun j => min (s.base_delay_ms * 2 ^ (1 - 1 + j)) s.max_delay_ms)).sum
        ≤ ((List.range (s.attempts - 1)).map
          (fun j => min (s.base_delay_ms * 2 ^ (1 - 1 + j)) s.max_delay_ms)).sum := this
      _ = ((List.range (s.attempts - 1)).map
          (fun j => min (s.base_delay_ms * 2 ^ j) s.max_delay_ms)).sum := by
            norm_num

/-- Operation used by the retry witnesses: fails on attempts 1 and 2,
succeeds from attempt 3 on. -/
def retryOpW : Nat → Except String String :=
  fun i => if 3 ≤ i then Except.ok "v" else Except.error "e"

/-- C4 witness: `attempts = 5, base = 50, max = 2000`, success on attempt 3 —
exactly 3 invocations, sleeps `[50, 100]`. -/
theorem C4_retry_behaviour_witness :
    (RetrySettings.mk 5 50 2000).run retryOpW
      = some (Except.ok "v", 3, (List.range (3 - 1)).map
          (fun j => min (50 * 2 ^ j) 2000)) :=
  (C4_retry_behaviour (RetrySettings.mk 5 50 2000) retryOpW
      (by norm_num) (by norm_num) (by norm_num)).1 3 "v" (by norm_num) (by norm_num)
    (by simp [retryOpW])
    (by
      intro i h1 h2
      refine ⟨"e", ?_⟩
      interval_cases i <;> simp [retryOpW])

/-! ## C10: retry totality -/

/-- C10: with `attempts ≥ 1`, `run_with_retry` always returns a value (the
`unreachable!` after the loop — modelled as `none` — is never reached);
with `attempts = 0` the loop body never runs, the result is the panic
(`none`) whatever the operation is (the operation is never invoked: the
outcome does not depend on it), instead of an error value. -/
theorem C10_retry_totality {E T : Type} (s : RetrySettings) (op : Nat → Except E T) :
    (1 ≤ s.attempts → (s.run op).isSome = true) ∧
    (s.attempts = 0 → s.run op = none ∧
      ∀ op2 : Nat → Except E T, s.run op = s.run op2) := by
  constructor
  · intro hA
    have key : ∀ n a delay, 1 ≤ a → n = s.attempts + 1 - a → a ≤ s.attempts →
        (s.runLoop op n a delay).isSome = true := by
      intro n
      induction n with
      | zero => intro a delay ha hn haA; omega
      | succ rem ih =>
        intro a delay ha hn haA
        rcases hop : op a with e | v
        case ok =>
          simp [RetrySettings.runLoop, hop]
        case error =>
          by_cases hlt : a < s.attempts
          · have hrec := ih (a + 1) (min (delay * 2 % 2 ^ 64) s.max_delay_ms)
              (by omega) (by omega) (by omega)
            simp only [RetrySettings.runLoop, hop, if_pos hlt]
            rcases h : s.runLoop op rem (a + 1) (min (delay * 2 % 2 ^ 64) s.max_delay_ms)
              with _ | ⟨r, k, sl⟩
            · rw [h] at hrec
              simp at hrec
            · simp only [Option.isSome_some]
          · simp [RetrySettings.runLoop, hop, if_neg hlt]
    exact key s.attempts 1 s.base_delay_ms le_rfl (by omega) hA
  · intro h0
    unfold RetrySettings.run
    rw [h0]
    exact ⟨rfl, fun op2 => rfl⟩

/-- C10 witness: one attempt always returns a value; zero attempts reach the
`unreachable!` without invoking the operation. -/
theorem C10_retry_totality_witness :
    ((RetrySettings.mk 1 5 10).run retryOpW).isSome = true ∧
    (RetrySettings.mk 0 5 10).run retryOpW = none :=
  ⟨(C10_retry_totality (RetrySettings.mk 1 5 10) retryOpW).1 (by norm_num),
   ((C10_retry_totality (RetrySettings.mk 0 5 10) retryOpW).2 rfl).1⟩

/-! ## Base64 and split lemmas (C6) -/

theorem b64CharVal_valChar : ∀ v, v < 64 → b64CharVal (b64ValChar v) = some v := by
  decide

theorem b64ValChar_ne_dot : ∀ v, v < 64 → b64ValChar v ≠ '.' := by
  decide

theorem b64CharVal_pad_eq_none : b64CharVal '=' = none := by
  decide

theorem b64EncodeBytes_nil : b64EncodeBytes [] = [] := rfl

theorem b64EncodeBytes_one (x : Nat) :
    b64EncodeBytes [x]
      = [b64ValChar (x % 2 ^ 8 * 2 ^ 4 / 2 ^ 6),
         b64ValChar (x % 2 ^ 8 * 2 ^ 4 % 2 ^ 6)] := rfl

theorem b64EncodeBytes_two (x y : Nat) :
    b64EncodeBytes [x, y]
      = [b64ValChar ((x % 2 ^ 8 * 2 ^ 8 + y % 2 ^ 8) * 2 ^ 2 / 2 ^ 12),
         b64ValChar ((x % 2 ^ 8 * 2 ^ 8 + y % 2 ^ 8) * 2 ^ 2 / 2 ^ 6 % 2 ^ 6),
         b64ValChar ((x % 2 ^ 8 * 2 ^ 8 + y % 2 ^ 8) * 2 ^ 2 % 2 ^ 6)] := rfl

theorem b64EncodeBytes_cons3 (x y z : Nat) (rest : List Nat) :
    b64EncodeBytes (x :: y :: z :: rest)
      = [b64ValChar ((x % 2 ^ 8 * 2 ^ 16 + y % 2 ^ 8 * 2 ^ 8 + z % 2 ^ 8) / 2 ^ 18),
         b64ValChar ((x % 2 ^ 8 * 2 ^ 16 + y % 2 ^ 8 * 2 ^ 8 + z % 2 ^ 8) / 2 ^ 12 % 2 ^ 6),
         b64ValChar ((x % 2 ^ 8 * 2 ^ 16 + y % 2 ^ 8 * 2 ^ 8 + z % 2 ^ 8) / 2 ^ 6 % 2 ^ 6),
         b64ValChar ((x % 2 ^ 8 * 2 ^ 16 + y % 2 ^ 8 * 2 ^ 8 + z % 2 ^ 8) % 2 ^ 6)]
        ++ b64EncodeBytes rest := rfl

theorem b64DecodeChars_nil : b64DecodeChars [] = some [] := rfl

theorem b64DecodeChars_one (a : Char) : b64DecodeChars [a] = none := rfl

theorem b64DecodeChars_two (a b : Char) :
    b64DecodeChars [a, b]
      = (b64CharVal a).bind (fun va => (b64CharVal b).bind (fun vb =>
          if (va * 2 ^ 6 + vb) % 2 ^ 4 = 0
          then some [(va * 2 ^ 6 + vb) / 2 ^ 4] else none)) := rfl

theorem b64DecodeChars_three (a b c : Char) :
    b64DecodeChars [a, b, c]
      = (b64CharVal a).bind (fun va => (b64CharVal b).bind (fun vb =>
          (b64CharVal c).bind (fun vc =>
          if (va * 2 ^ 12 + vb * 2 ^ 6 + vc) % 2 ^ 2 = 0
          then some [(va * 2 ^ 12 + vb * 2 ^ 6 + vc) / 2 ^ 10,
                     (va * 2 ^ 12 + vb * 2 ^ 6 + vc) / 2 ^ 2 % 2 ^ 8]
          else none))) := rfl

theorem b64DecodeChars_cons4 (a b c d : Char) (rest : List Char) :
    b64DecodeChars (a :: b :: c :: d :: rest)
      = (b64CharVal a).bind (fun va => (b64CharVal b).bind (fun vb =>
          (b64CharVal c).bind (fun vc => (b64CharVal d).bind (fun vd =>
          (b64DecodeChars rest).bind (fun bytes =>
          some ([(va * 2 ^ 18 + vb * 2 ^ 12 + vc * 2 ^ 6 + vd) / 2 ^ 16,
                 (va * 2 ^ 18 + vb * 2 ^ 12 + vc * 2 ^ 6 + vd) / 2 ^ 8 % 2 ^ 8,
                 (va * 2 ^ 18 + vb * 2 ^ 12 + vc * 2 ^ 6 + vd) % 2 ^ 8]
                ++ bytes)))))) := rfl

theorem encode_no_dot : ∀ bs : List Nat, '.' ∉ b64EncodeBytes bs
  | [] => by
    rw [b64EncodeBytes_nil]
    exact List.not_mem_nil _
  | [x] => by
    intro hm
    rw [b64EncodeBytes_one] at hm
    rcases List.mem_cons.mp hm with h | hm1
    · exact b64ValChar_ne_dot _ (by omega) h.symm
    · rcases List.mem_cons.mp hm1 with h | hm2
      · exact b64ValChar_ne_dot _ (by omega) h.symm
      · exact List.not_mem_nil _ hm2
  | [x, y] => by
    intro hm
    rw [b64EncodeBytes_two] at hm
    rcases List.mem_cons.mp hm with h | hm1
    · exact b64ValChar_ne_dot _ (by omega) h.symm
    · rcases List.mem_cons.mp hm1 with h | hm2
      · exact b64ValChar_ne_dot _ (by omega) h.symm
      · rcases List.mem_cons.mp hm2 with h | hm3
        · exact b64ValChar_ne_dot _ (by omega) h.symm
        · exact List.not_mem_nil _ hm3
  | x :: y :: z :: w :: rest => by
    intro hm
    rw [b64EncodeBytes_cons3] at hm
    rw [List.cons_append, List.cons_append, List.cons_append, List.cons_append,
      List.nil_append] at hm
    rcases List.mem_cons.mp hm with h | hm1
    · exact b64ValChar_ne_dot _ (by omega) h.symm
    · rcases List.mem_cons.mp hm1 with h | hm2
      · exact b64ValChar_ne_dot _ (by omega) h.symm
      · rcases List.mem_cons.mp hm2 with h | hm3
        · exact b64ValChar_ne_dot _ (by omega) h.symm
        · rcases List.mem_cons.mp hm3 with h | hm4
          · exact b64ValChar_ne_dot _ (by omega) h.symm
          · exact encode_no_dot (w :: rest) hm4
  | [x, y, z] => by
    intro hm
    rw [b64EncodeBytes_cons3, b64EncodeBytes_nil, List.append_nil] at hm
    rcases List.mem_cons.mp hm with h | hm1
    · exact b64ValChar_ne_dot _ (by omega) h.symm
    · rcases List.mem_cons.mp hm1 with h | hm2
      · exact b64ValChar_ne_dot _ (by omega) h.symm
      · rcases List.mem_cons.mp hm2 with h | hm3
        · exact b64ValChar_ne_dot _ (by omega) h.symm
        · rcases List.mem_cons.mp hm3 with h | hm4
          · exact b64ValChar_ne_dot _ (by omega) h.symm
          · exact List.not_mem_nil _ hm4

theorem decode_rejects_padding : ∀ l : List Char, '=' ∈ l → b64DecodeChars l = none
  | [] => by
    intro hm
    exact absurd hm (List.not_mem_nil _)
  | [a] => by
    intro _
    exact b64DecodeChars_one a
  | [a, b] => by
    intro hm
    rw [b64DecodeChars_two]
    have hpad : a = '=' ∨ b = '=' := by
      rcases List.mem_cons.mp hm with h | hm1
      · exact Or.inl h.symm
      · rcases List.mem_cons.mp hm1 with h | hm2
        · exact Or.inr h.symm
        · exact absurd hm2 (List.not_mem_nil _)
    rcases hpad with rfl | rfl
    · rw [b64CharVal_pad_eq_none]
      rfl
    · rw [b64CharVal_pad_eq_none]
      cases b64CharVal a <;> rfl
  | [a, b, c] => by
    intro hm
    rw [b64DecodeChars_three]
    have hpad : a = '=' ∨ b = '=' ∨ c = '=' := by
      rcases List.mem_cons.mp hm with h | hm1
      · exact Or.inl h.symm
      · rcases List.mem_cons.mp hm1 with h | hm2
        · exact Or.inr (Or.inl h.symm)
        · rcases List.mem_cons.mp hm2 with h | hm3
          · exact Or.inr (Or.inr h.symm)
          · exact absurd hm3 (List.not_mem_nil _)
    rcases hpad with rfl | rfl | rfl
    · rw [b64CharVal_pad_eq_none]
      rfl
    · rw [b64CharVal_pad_eq_none]
      cases b64CharVal a <;> rfl
    · rw [b64CharVal_pad_eq_none]
      cases b64CharVal a <;> cases b64CharVal b <;> rfl
  | a :: b :: c :: d :: rest => by
    intro hm
    rw [b64DecodeChars_cons4]
    by_cases ha : a = '='
    · rw [ha, b64CharVal_pad_eq_none]
      rfl
    · by_cases hb : b = '='
      · rw [hb, b64CharVal_pad_eq_none]
        cases b64CharVal a <;> rfl
      · by_cases hc : c = '='
        · rw [hc, b64CharVal_pad_eq_none]
          cases b64CharVal a <;> cases b64CharVal b <;> rfl
        · by_cases hd : d = '='
          · rw [hd, b64CharVal_pad_eq_none]
            cases b64CharVal a <;> cases b64CharVal b <;> cases b64CharVal c <;> rfl
          · have hrest : '=' ∈ rest := by
              rcases List.mem_cons.mp hm with h | hm1
              · exact absurd h.symm ha
              · rcases List.mem_cons.mp hm1 with h | hm2
                · exact absurd h.symm hb
                · rcases List.mem_cons.mp hm2 with h | hm3
                  · exact absurd h.symm hc
                  · rcases List.mem_cons.mp hm3 with h | hm4
                    · exact absurd h.symm hd
                    · exact hm4
            rw [decode_rejects_padding rest hrest]
            cases b64CharVal a <;> cases b64CharVal b <;> cases b64CharVal c <;>
              cases b64CharVal d <;> rfl

theorem decode_encode : ∀ bs : List Nat, (∀ x ∈ bs, x < 2 ^ 8) →
    b64DecodeChars (b64EncodeBytes bs) = some bs
  | [] => by
    intro _
    rfl
  | [x] => by
    intro hb
    have hx : x < 2 ^ 8 := hb x (by simp)
    rw [b64EncodeBytes_one, b64DecodeChars_two,
      b64CharVal_valChar _ (by omega), b64CharVal_valChar _ (by omega)]
    simp only [Option.some_bind]
    have hval : x % 2 ^ 8 * 2 ^ 4 / 2 ^ 6 * 2 ^ 6 + x % 2 ^ 8 * 2 ^ 4 % 2 ^ 6
        = x * 2 ^ 4 := by omega
    rw [hval]
    rw [if_pos (by omega)]
    have : x * 2 ^ 4 / 2 ^ 4 = x := by omega
    rw [this]
  | [x, y] => by
    intro hb
    have hx : x < 2 ^ 8 := hb x (by simp)
    have hy : y < 2 ^ 8 := hb y (by simp)
    rw [b64EncodeBytes_two, b64DecodeChars_three,
      b64CharVal_valChar _ (by omega), b64CharVal_valChar _ (by omega),
      b64CharVal_valChar _ (by omega)]
    simp only [Option.some_bind]
    have hval : (x % 2 ^ 8 * 2 ^ 8 + y % 2 ^ 8) * 2 ^ 2 / 2 ^ 12 * 2 ^ 12
        + (x % 2 ^ 8 * 2 ^ 8 + y % 2 ^ 8) * 2 ^ 2 / 2 ^ 6 % 2 ^ 6 * 2 ^ 6
        + (x % 2 ^ 8 * 2 ^ 8 + y % 2 ^ 8) * 2 ^ 2 % 2 ^ 6
        = (x * 2 ^ 8 + y) * 2 ^ 2 := by omega
    rw [hval]
    rw [if_pos (by omega)]
    have h1 : (x * 2 ^ 8 + y) * 2 ^ 2 / 2 ^ 10 = x := by omega
    have h2 : (x * 2 ^ 8 + y) * 2 ^ 2 / 2 ^ 2 % 2 ^ 8 = y := by omega
    rw [h1, h2]
  | x :: y :: z :: rest => by
    intro hb
    have hx : x < 2 ^ 8 := hb x (by simp)
    have hy : y < 2 ^ 8 := hb y (by simp)
    have hz : z < 2 ^ 8 := hb z (by simp)
    have ih := decode_encode rest (fun w hw => hb w (by simp [hw]))
    rw [b64EncodeBytes_cons3]
    rw [List.cons_append, List.cons_append, List.cons_append, List.cons_append,
      List.nil_append]
    rw [b64DecodeChars_cons4,
      b64CharVal_valChar _ (by omega), b64CharVal_valChar _ (by omega),
      b64CharVal_valChar _ (by omega), b64CharVal_valChar _ (by omega)]
    simp only [Option.some_bind, ih, Option.bind_some]
    have hval : (x % 2 ^ 8 * 2 ^ 16 + y % 2 ^ 8 * 2 ^ 8 + z % 2 ^ 8) / 2 ^ 18 * 2 ^ 18
        + (x % 2 ^ 8 * 2 ^ 16 + y % 2 ^ 8 * 2 ^ 8 + z % 2 ^ 8) / 2 ^ 12 % 2 ^ 6 * 2 ^ 12
        + (x % 2 ^ 8 * 2 ^ 16 + y % 2 ^ 8 * 2 ^ 8 + z % 2 ^ 8) / 2 ^ 6 % 2 ^ 6 * 2 ^ 6
        + (x % 2 ^ 8 * 2 ^ 16 + y % 2 ^ 8 * 2 ^ 8 + z % 2 ^ 8) % 2 ^ 6
        = x * 2 ^ 16 + y * 2 ^ 8 + z := by omega
    rw [hval]
    have h1 : (x * 2 ^ 16 + y * 2 ^ 8 + z) / 2 ^ 16 = x := by omega
    have h2 : (x * 2 ^ 16 + y * 2 ^ 8 + z) / 2 ^ 8 % 2 ^ 8 = y := by omega
    have h3 : (x * 2 ^ 16 + y * 2 ^ 8 + z) % 2 ^ 8 = z := by omega
    rw [h1, h2, h3]
    rfl

theorem splitDots_nil : splitDots [] = [[]] := rfl

theorem splitDots_cons (c : Char) (rest : List Char) :
    splitDots (c :: rest)
      = if c = '.' then [] :: splitDots rest
        else match splitDots rest with
          | h :: t => (c :: h) :: t
          | [] => [[c]] := rfl

theorem splitDots_no_dot : ∀ l : List Char, '.' ∉ l → splitDots l = [l]
  | [] => by
    intro _
    rfl
  | c :: rest => by
    intro h
    have hc : ¬ c = '.' := fun hc => h (by simp [hc])
    have ih := splitDots_no_dot rest (fun hm => h (List.mem_cons_of_mem _ hm))
    rw [splitDots_cons, if_neg hc, ih]

theorem splitDots_append : ∀ l1 l2 : List Char, '.' ∉ l1 →
    splitDots (l1 ++ '.' :: l2) = l1 :: splitDots l2
  | [], l2 => by
    intro _
    rw [List.nil_append, splitDots_cons, if_pos rfl]
  | c :: l1', l2 => by
    intro h
    have hc : ¬ c = '.' := fun hc => h (by simp [hc])
    have ih := splitDots_append l1' l2 (fun hm => h (List.mem_cons_of_mem _ hm))
    rw [List.cons_append, splitDots_cons, if_neg hc, ih]

/-! ## C6: JWT expiry extraction -/

/-- C6 (amended): for every JWT token field, expiry extraction splits the
raw value on `'.'` and fails unless there are exactly three parts;
the middle part is base64-decoded with the standard alphabet, **accepting
only unpadded input** (`STANDARD_NO_PAD` requires the absence of padding: a
trailing `'='` is rejected, see the third conjunct); the claim `exp` is
read from the decoded JSON as an unsigned integer; extraction fails when
`exp ≤ now` and otherwise yields `exp` as the token's absolute expiry. -/
theorem C6_jwt_expiry (parseClaims : List Nat → Option Nat) (now : Nat) :
    (∀ l, (splitDots l).length ≠ 3 →
      get_jwt_token_expiration parseClaims now l
        = Except.error "invalid JWT format") ∧
    (∀ hdr sig bytes exp, '.' ∉ hdr → '.' ∉ sig → (∀ x ∈ bytes, x < 2 ^ 8) →
      parseClaims bytes = some exp →
      (now < exp →
        get_jwt_token_expiration parseClaims now
            (hdr ++ '.' :: (b64EncodeBytes bytes ++ '.' :: sig))
          = Except.ok exp) ∧
      (exp ≤ now →
        get_jwt_token_expiration parseClaims now
            (hdr ++ '.' :: (b64EncodeBytes bytes ++ '.' :: sig))
          = Except.error "JWT expired")) ∧
    (∀ l : List Char, '=' ∈ l → b64DecodeChars l = none) := by
  refine ⟨?_, ?_, decode_rejects_padding⟩
  · intro l hlen
    unfold get_jwt_token_expiration decode_jwt_from_string
    rcases hs : splitDots l with _ | ⟨a, _ | ⟨b, _ | ⟨c, _ | ⟨d, rest⟩⟩⟩⟩
    · rfl
    · rfl
    · rfl
    · rw [hs] at hlen
      exact absurd rfl hlen
    · rfl
  · intro hdr sig bytes exp hhdr hsig hbytes hpc
    have hsplit : splitDots (hdr ++ '.' :: (b64EncodeBytes bytes ++ '.' :: sig))
        = [hdr, b64EncodeBytes bytes, sig] := by
      rw [splitDots_append hdr _ hhdr,
        splitDots_append (b64EncodeBytes bytes) sig (encode_no_dot bytes),
        splitDots_no_dot sig hsig]
    unfold get_jwt_token_expiration decode_jwt_from_string
    rw [hsplit]
    simp only [decode_encode bytes hbytes, hpc]
    constructor
    · intro hlt
      rw [if_neg (by omega)]
    · intro hle
      rw [if_pos hle]

/-- C6 witness: header `"h"`, signature `"s"`, payload the bytes of the
JSON claims object with `exp = 12`, checked at `now = 0` and `now = 12`. -/
theorem C6_jwt_expiry_witness :
    get_jwt_token_expiration
        (fun bs => if bs = [123, 34, 101, 120, 112, 34, 58, 49, 50, 125]
          then some 12 else none) 0
        ("h".data ++ '.' ::
          (b64EncodeBytes [123, 34, 101, 120, 112, 34, 58, 49, 50, 125]
            ++ '.' :: "s".data))
      = Except.ok 12 ∧
    get_jwt_token_expiration
        (fun bs => if bs = [123, 34, 101, 120, 112, 34, 58, 49, 50, 125]
          then some 12 else none) 12
        ("h".data ++ '.' ::
          (b64EncodeBytes [123, 34, 101, 120, 112, 34, 58, 49, 50, 125]
            ++ '.' :: "s".data))
      = Except.error "JWT expired" :=
  ⟨((C6_jwt_expiry
      (fun bs => if bs = [123, 34, 101, 120, 112, 34, 58, 49, 50, 125]
        then some 12 else none) 0).2.1
      "h".data "s".data [123, 34, 101, 120, 112, 34, 58, 49, 50, 125] 12
      (by decide) (by decide) (by decide) (by decide)).1 (by decide),
   ((C6_jwt_expiry
      (fun bs => if bs = [123, 34, 101, 120, 112, 34, 58, 49, 50, 125]
        then some 12 else none) 12).2.1
      "h".data "s".data [123, 34, 101, 120, 112, 34, 58, 49, 50, 125] 12
      (by decide) (by decide) (by decide) (by decide)).2 (by decide)⟩

/-- C6 counterexample: the claim says base64 decoding accepts the middle
part both with and without padding.  The payload `"eyJleHAiOjEyfQ"` decodes
to the claims bytes `{"exp":12}` and extraction succeeds, but the same
payload with its canonical padding `"eyJleHAiOjEyfQ=="` is rejected
(`STANDARD_NO_PAD` requires the absence of padding). -/
theorem C6_jwt_expiry_cex :
    get_jwt_token_expiration
        (fun bs => if bs = [123, 34, 101, 120, 112, 34, 58, 49, 50, 125]
          then some 12 else none) 0 ("h.eyJleHAiOjEyfQ.s".data)
      = Except.ok 12 ∧
    get_jwt_token_expiration
        (fun bs => if bs = [123, 34, 101, 120, 112, 34, 58, 49, 50, 125]
          then some 12 else none) 0 ("h.eyJleHAiOjEyfQ==.s".data)
      = Except.error "base64 decode error" := by
  exact ⟨rfl, rfl⟩


/-! ## DAG builder lemmas (C5) -/

theorem lookup_mem {m : SourceMap} {a : String} {v : Option (List String)}
    (h : m.lookup a = some v) : (a, v) ∈ m := by
  induction m with
  | nil => simp [List.lookup] at h
  | cons p rest ih =>
    obtain ⟨k, w⟩ := p
    by_cases hpa : a = k
    · subst hpa
      simp only [List.lookup_cons, beq_self_eq_true] at h
      rcases Option.some.inj h with rfl
      exact List.mem_cons_self _ _
    · simp only [List.lookup_cons, beq_false_of_ne hpa] at h
      exact List.mem_cons_of_mem _ (ih h)

theorem lookup_none_iff {m : SourceMap} {a : String} :
    m.lookup a = none ↔ a ∉ m.keys := by
  induction m with
  | nil => simp [List.lookup, SourceMap.keys]
  | cons p rest ih =>
    obtain ⟨k, w⟩ := p
    by_cases hpa : a = k
    · subst hpa
      simp [List.lookup_cons, SourceMap.keys]
    · simp only [List.lookup_cons, beq_false_of_ne hpa, SourceMap.keys,
        List.map_cons, List.mem_cons]
      rw [ih]
      unfold SourceMap.keys
      constructor
      · intro h hor
        rcases hor with h' | h'
        · exact hpa h'
        · exact h h'
      · intro h hm
        exact h (Or.inr hm)

theorem lookup_some_of_mem_nodup {m : SourceMap} (hK : m.keys.Nodup)
    {a : String} {v : Option (List String)} (hmem : (a, v) ∈ m) :
    m.lookup a = some v := by
  induction m with
  | nil => exact absurd hmem (List.not_mem_nil _)
  | cons p rest ih =>
    obtain ⟨k, w⟩ := p
    have hK' : (SourceMap.keys rest).Nodup := by
      have := hK
      unfold SourceMap.keys at this ⊢
      rw [List.map_cons] at this
      exact (List.nodup_cons.mp this).2
    have hpnot : k ∉ SourceMap.keys rest := by
      have := hK
      unfold SourceMap.keys at this
      rw [List.map_cons] at this
      exact (List.nodup_cons.mp this).1
    rcases List.mem_cons.mp hmem with heq | hmem'
    · rcases Prod.mk.injEq .. ▸ heq with ⟨rfl, rfl⟩
      simp [List.lookup_cons]
    · by_cases hpa : a = k
      · exfalso
        apply hpnot
        rw [← hpa]
        exact List.mem_map_of_mem Prod.fst hmem'
      · simp only [List.lookup_cons, beq_false_of_ne hpa]
        exact ih hK' hmem'

theorem edge_mem_keys {m : SourceMap} {a b : String} (h : m.edge a b) :
    a ∈ m.keys := by
  by_contra hmem
  have hnone := lookup_none_iff.mpr hmem
  unfold SourceMap.edge SourceMap.inputsOf at h
  rw [hnone] at h
  simp [Option.join] at h

theorem edge_inputs {m : SourceMap} {a b : String} (h : m.edge a b) :
    ∃ ins, m.lookup a = some (some ins) ∧ b ∈ ins := by
  unfold SourceMap.edge SourceMap.inputsOf at h
  rcases hl : m.lookup a with _ | (_ | ins)
  · rw [hl] at h
    simp at h
  · rw [hl] at h
    simp [Option.join] at h
  · rw [hl] at h
    refine ⟨ins, rfl, ?_⟩
    simpa [Option.join] using h

theorem edge_of_inputs {m : SourceMap} {a b : String} {ins : List String}
    (hl : m.lookup a = some (some ins)) (hb : b ∈ ins) : m.edge a b := by
  unfold SourceMap.edge SourceMap.inputsOf
  rw [hl]
  simpa [Option.join] using hb

theorem nodup_subset_length_le {l l' : List String} (hnd : l.Nodup)
    (hsub : ∀ x ∈ l, x ∈ l') : l.length ≤ l'.length := by
  classical
  calc l.length = l.toFinset.card := (List.toFinset_card_of_nodup hnd).symm
    _ ≤ l'.toFinset.card := by
        apply Finset.card_le_card
        intro x hx
        rw [List.mem_toFinset] at hx ⊢
        exact hsub x hx
    _ ≤ l'.length := List.toFinset_card_le l'

/-- The temporary-mark stack is a dependency chain: each element was pushed
while processing the inputs of the element below it. -/
def TempChain (m : SourceMap) (temp : List String) : Prop :=
  List.Chain' (fun a b => m.edge b a) temp

theorem chain_reaches (m : SourceMap) :
    ∀ ts (t : String), TempChain m (t :: ts) → ∀ x ∈ t :: ts,
      x = t ∨ Relation.TransGen m.edge x t := by
  intro ts
  induction ts with
  | nil =>
    intro t _ x hx
    left
    simpa using hx
  | cons u ts' ih =>
    intro t hchain x hx
    have hedge : m.edge u t := (List.chain'_cons.mp hchain).1
    have hchain' : TempChain m (u :: ts') := (List.chain'_cons.mp hchain).2
    rcases List.mem_cons.mp hx with rfl | hx'
    · exact Or.inl rfl
    · right
      rcases ih u hchain' x hx' with rfl | htg
      · exact Relation.TransGen.single hedge
      · exact Relation.TransGen.tail htg hedge

/-- The ordering invariant: in every decomposition of the order, the direct
dependencies of the middle element already occur in the prefix. -/
def TopoOK (m : SourceMap) (l : List String) : Prop :=
  ∀ l1 a l2, l = l1 ++ a :: l2 → ∀ b, m.edge a b → b ∈ l1

/-- Invariant of the depth-first visit state. -/
structure VInv (m : SourceMap) (st : VisitSt) : Prop where
  order_nodup : st.order.Nodup
  visited_iff : ∀ x, x ∈ st.visited ↔ x ∈ st.order
  temp_not_visited : ∀ x ∈ st.temp, x ∉ st.visited
  temp_nodup : st.temp.Nodup
  temp_keys : ∀ x ∈ st.temp, x ∈ m.keys
  order_keys : ∀ x ∈ st.order, x ∈ m.keys
  topo : TopoOK m st.order
  deps_closed : ∀ a ∈ st.order, ∀ b, m.edge a b → b ∈ m.keys

/-- Postcondition of a successful `visit key`. -/
structure VisitPost (m : SourceMap) (st st' : VisitSt) (key : String) : Prop where
  temp_eq : st'.temp = st.temp
  visited_mono : ∀ x ∈ st.visited, x ∈ st'.visited
  visited_new : ∀ x ∈ st'.visited, x ∈ st.visited ∨ x ∉ st.temp
  key_visited : key ∈ st'.visited
  inv : VInv m st'

/-- Postcondition of a successful `visitDeps deps key`. -/
structure DepsPost (m : SourceMap) (deps : List String) (st st' : VisitSt) : Prop where
  temp_eq : st'.temp = st.temp
  visited_mono : ∀ x ∈ st.visited, x ∈ st'.visited
  visited_new : ∀ x ∈ st'.visited, x ∈ st.visited ∨ x ∉ st.temp
  deps_visited : ∀ d ∈ deps, d ∈ m.keys ∧ d ∈ st'.visited
  inv : VInv m st'

/-- Provenance of the two intended error kinds. -/
structure ErrPost (m : SourceMap) (res : Except DagError VisitSt) : Prop where
  on_cycle : ∀ id, res = Except.error (DagError.cycle id) →
    Relation.TransGen m.edge id id
  on_unknown : ∀ dep k, res = Except.error (DagError.unknownDep dep k) →
    m.edge k dep ∧ dep ∉ m.keys

theorem visitDeps_nil (m : SourceMap) (visitFn) (key : String) (st : VisitSt) :
    visitDeps m visitFn [] key st = Except.ok st := rfl

theorem visitDeps_cons (m : SourceMap) (visitFn) (d : String) (rest : List String)
    (key : String) (st : VisitSt) :
    visitDeps m visitFn (d :: rest) key st
      = if (m.lookup d).isNone then Except.error (DagError.unknownDep d key)
        else match visitFn d st with
          | Except.error e => Except.error e
          | Except.ok st' => visitDeps m visitFn rest key st' := rfl

theorem visitDeps_spec (m : SourceMap)
    (visitFn : String → VisitSt → Except DagError VisitSt)
    (key : String) (τ : List String)
    (hfn : ∀ d st, d ∈ m.keys → VInv m st → TempChain m st.temp → st.temp = τ →
      (∀ t ts, st.temp = t :: ts → m.edge t d) →
      (∀ st', visitFn d st = Except.ok st' → VisitPost m st st' d) ∧
      ErrPost m (visitFn d st)) :
    ∀ deps st, VInv m st → TempChain m st.temp → st.temp = τ →
      (∃ ts, st.temp = key :: ts) →
      (∀ d ∈ deps, m.edge key d) →
      (∀ st', visitDeps m visitFn deps key st = Except.ok st' →
        DepsPost m deps st st') ∧
      ErrPost m (visitDeps m visitFn deps key st) := by
  intro deps
  induction deps with
  | nil =>
    intro st hInv _ _ _ _
    constructor
    · intro st' hok
      rw [visitDeps_nil] at hok
      rcases Except.ok.inj hok with rfl
      exact ⟨rfl, fun x hx => hx, fun x hx => Or.inl hx, by simp, hInv⟩
    · refine ⟨fun id h => ?_, fun dep k h => ?_⟩ <;>
        · rw [visitDeps_nil] at h
          simp at h
  | cons d rest ih =>
    intro st hInv hchain hτ hhead hdeps
    rw [visitDeps_cons]
    by_cases hlook : (m.lookup d).isNone = true
    · rw [if_pos hlook]
      constructor
      · intro st' hok
        simp at hok
      · refine ⟨fun id h => ?_, fun dep k h => ?_⟩
        · simp at h
        · simp only [Except.error.injEq, DagError.unknownDep.injEq] at h
          rcases h with ⟨rfl, rfl⟩
          exact ⟨hdeps d (List.mem_cons_self d rest),
            lookup_none_iff.mp (Option.isNone_iff_eq_none.mp hlook)⟩
    · rw [if_neg hlook]
      have hdK : d ∈ m.keys := by
        rcases ho : m.lookup d with _ | v
        · rw [ho] at hlook
          simp at hlook
        · unfold SourceMap.keys
          exact List.mem_map_of_mem Prod.fst (lookup_mem ho)
      have hlink : ∀ t ts, st.temp = t :: ts → m.edge t d := by
        intro t ts heq
        rcases hhead with ⟨ts0, hts0⟩
        rw [hts0] at heq
        rcases List.cons.inj heq with ⟨rfl, rfl⟩
        exact hdeps d (List.mem_cons_self d rest)
      have hcall := hfn d st hdK hInv hchain hτ hlink
      rcases hres : visitFn d st with e | st1
      · constructor
        · intro st' hok
          simp at hok
        · refine ⟨fun id h => ?_, fun dep k h => ?_⟩
          · simp only [Except.error.injEq] at h
            exact hcall.2.on_cycle id (by rw [hres, h])
          · simp only [Except.error.injEq] at h
            exact hcall.2.on_unknown dep k (by rw [hres, h])
      · have hpost := hcall.1 st1 hres
        have hchain1 : TempChain m st1.temp := by
          rw [hpost.temp_eq]
          exact hchain
        have hτ1 : st1.temp = τ := by
          rw [hpost.temp_eq]
          exact hτ
        have hhead1 : ∃ ts, st1.temp = key :: ts := by
          rw [hpost.temp_eq]
          exact hhead
        have hrec := ih st1 hpost.inv hchain1 hτ1 hhead1
          (fun d' hd' => hdeps d' (List.mem_cons_of_mem _ hd'))
        constructor
        · intro st' hok
          have hrp := hrec.1 st' hok
          refine ⟨?_, ?_, ?_, ?_, hrp.inv⟩
          · rw [hrp.temp_eq, hpost.temp_eq]
          · exact fun x hx => hrp.visited_mono x (hpost.visited_mono x hx)
          · intro x hx
            rcases hrp.visited_new x hx with h1 | h1
            · rcases hpost.visited_new x h1 with h2 | h2
              · exact Or.inl h2
              · exact Or.inr h2
            · rw [hpost.temp_eq] at h1
              exact Or.inr h1
          · intro d' hd'
            rcases List.mem_cons.mp hd' with rfl | hd''
            · exact ⟨hdK, hrp.visited_mono _ hpost.key_visited⟩
            · exact hrp.deps_visited d' hd''
        · exact hrec.2

theorem visitDeps_no_fuelOut (m : SourceMap)
    (visitFn : String → VisitSt → Except DagError VisitSt)
    (key : String) (τ : List String)
    (hfn_ok : ∀ d st, d ∈ m.keys → VInv m st → TempChain m st.temp → st.temp = τ →
      (∀ t ts, st.temp = t :: ts → m.edge t d) →
      ∀ st', visitFn d st = Except.ok st' → VisitPost m st st' d)
    (hfn_fuel : ∀ d st, d ∈ m.keys → VInv m st → TempChain m st.temp → st.temp = τ →
      (∀ t ts, st.temp = t :: ts → m.edge t d) →
      visitFn d st ≠ Except.error DagError.fuelOut) :
    ∀ deps st, VInv m st → TempChain m st.temp → st.temp = τ →
      (∃ ts, st.temp = key :: ts) →
      (∀ d ∈ deps, m.edge key d) →
      visitDeps m visitFn deps key st ≠ Except.error DagError.fuelOut := by
  intro deps
  induction deps with
  | nil =>
    intro st _ _ _ _ _ h
    rw [visitDeps_nil] at h
    simp at h
  | cons d rest ih =>
    intro st hInv hchain hτ hhead hdeps h
    rw [visitDeps_cons] at h
    by_cases hlook : (m.lookup d).isNone = true
    · rw [if_pos hlook] at h
      simp at h
    · rw [if_neg hlook] at h
      have hdK : d ∈ m.keys := by
        rcases ho : m.lookup d with _ | v
        · rw [ho] at hlook
          simp at hlook
        · unfold SourceMap.keys
          exact List.mem_map_of_mem Prod.fst (lookup_mem ho)
      have hlink : ∀ t ts, st.temp = t :: ts → m.edge t d := by
        intro t ts heq
        rcases hhead with ⟨ts0, hts0⟩
        rw [hts0] at heq
        rcases List.cons.inj heq with ⟨rfl, rfl⟩
        exact hdeps d (List.mem_cons_self d rest)
      rcases hres : visitFn d st with e | st1
      · rw [hres] at h
        simp only [Except.error.injEq] at h
        exact hfn_fuel d st hdK hInv hchain hτ hlink (by rw [hres, h])
      · rw [hres] at h
        have hpost := hfn_ok d st hdK hInv hchain hτ hlink st1 hres
        have hchain1 : TempChain m st1.temp := by
          rw [hpost.temp_eq]
          exact hchain
        have hτ1 : st1.temp = τ := by
          rw [hpost.temp_eq]
          exact hτ
        have hhead1 : ∃ ts, st1.temp = key :: ts := by
          rw [hpost.temp_eq]
          exact hhead
        exact ih st1 hpost.inv hchain1 hτ1 hhead1
          (fun d' hd' => hdeps d' (List.mem_cons_of_mem _ hd')) h

theorem visit_zero (m : SourceMap) (key : String) (st : VisitSt) :
    visit m 0 key st = Except.error DagError.fuelOut := rfl

theorem visit_succ (m : SourceMap) (fuel : Nat) (key : String) (st : VisitSt) :
    visit m (Nat.succ fuel) key st
      = if key ∈ st.visited then Except.ok st
        else if key ∈ st.temp then Except.error (DagError.cycle key)
        else
          match visitDeps m (visit m fuel) (m.inputsOf key) key
              { st with temp := key :: st.temp } with
          | Except.error e => Except.error e
          | Except.ok st2 =>
            Except.ok { st2 with
              temp := st2.temp.erase key,
              visited := key :: st2.visited,
              order := st2.order ++ [key] } := rfl

theorem topo_snoc (m : SourceMap) (l : List String) (key : String)
    (ht : TopoOK m l) (hdeps : ∀ b, m.edge key b → b ∈ l) :
    TopoOK m (l ++ [key]) := by
  intro l1 a l2 hsplit b hedge
  rcases List.append_eq_append_iff.mp hsplit with ⟨w, hc, hb⟩ | ⟨w, ha, hd⟩
  · rcases w with _ | ⟨u, w'⟩
    · rw [List.nil_append] at hb
      rcases List.cons.inj hb.symm with ⟨rfl, rfl⟩
      have hll : l1 = l := by
        rw [hc, List.append_nil]
      rw [hll]
      exact hdeps b hedge
    · exfalso
      have hlen := congrArg List.length hb
      simp at hlen
  · rcases w with _ | ⟨a', w'⟩
    · rw [List.nil_append] at hd
      rcases List.cons.inj hd with ⟨rfl, rfl⟩
      have hll : l = l1 := by
        rw [ha, List.append_nil]
      rw [← hll]
      exact hdeps b hedge
    · rw [List.cons_append] at hd
      rcases List.cons.inj hd with ⟨rfl, hl2⟩
      exact ht l1 a w' ha b hedge

theorem visit_spec (m : SourceMap) :
    ∀ fuel key st, key ∈ m.keys → VInv m st → TempChain m st.temp →
      (∀ t ts, st.temp = t :: ts → m.edge t key) →
      (∀ st', visit m fuel key st = Except.ok st' → VisitPost m st st' key) ∧
      ErrPost m (visit m fuel key st) ∧
      (m.keys.length + 1 - st.temp.length ≤ fuel →
        visit m fuel key st ≠ Except.error DagError.fuelOut) := by
  intro fuel
  induction fuel with
  | zero =>
    intro key st hkey hInv hchain hlink
    refine ⟨?_, ⟨?_, ?_⟩, ?_⟩
    · intro st' h
      rw [visit_zero] at h
      simp at h
    · intro id h
      rw [visit_zero] at h
      simp at h
    · intro dep k h
      rw [visit_zero] at h
      simp at h
    · intro hle
      exfalso
      have := nodup_subset_length_le hInv.temp_nodup hInv.temp_keys
      omega
  | succ fuel ih =>
    intro key st hkey hInv hchain hlink
    by_cases hvis : key ∈ st.visited
    · have hval : visit m (Nat.succ fuel) key st = Except.ok st := by
        rw [visit_succ, if_pos hvis]
      refine ⟨?_, ⟨?_, ?_⟩, ?_⟩
      · intro st' hok
        rw [hval] at hok
        rcases Except.ok.inj hok with rfl
        exact ⟨rfl, fun x hx => hx, fun x _ => Or.inl ‹x ∈ st.visited›, hvis, hInv⟩
      · intro id h
        rw [hval] at h
        simp at h
      · intro dep k h
        rw [hval] at h
        simp at h
      · intro _ h
        rw [hval] at h
        simp at h
    · by_cases htemp : key ∈ st.temp
      · have hval : visit m (Nat.succ fuel) key st
            = Except.error (DagError.cycle key) := by
          rw [visit_succ, if_neg hvis, if_pos htemp]
        refine ⟨?_, ⟨?_, ?_⟩, ?_⟩
        · intro st' hok
          rw [hval] at hok
          simp at hok
        · intro id h
          rw [hval] at h
          simp only [Except.error.injEq, DagError.cycle.injEq] at h
          subst h
          rcases hts : st.temp with _ | ⟨t, ts⟩
          · rw [hts] at htemp
            simp at htemp
          · have hedge : m.edge t key := hlink t ts hts
            have hchain' : TempChain m (t :: ts) := by
              rw [← hts]
              exact hchain
            have hmem : key ∈ t :: ts := by
              rw [← hts]
              exact htemp
            rcases chain_reaches m ts t hchain' key hmem with rfl | htg
            · exact Relation.TransGen.single hedge
            · exact Relation.TransGen.tail htg hedge
        · intro dep k h
          rw [hval] at h
          simp at h
        · intro _ h
          rw [hval] at h
          simp at h
      · have hInv1 : VInv m { st with temp := key :: st.temp } :=
          { order_nodup := hInv.order_nodup
            visited_iff := hInv.visited_iff
            temp_not_visited := by
              intro x hx
              rcases List.mem_cons.mp hx with rfl | hx'
              · exact hvis
              · exact hInv.temp_not_visited x hx'
            temp_nodup := List.nodup_cons.mpr ⟨htemp, hInv.temp_nodup⟩
            temp_keys := by
              intro x hx
              rcases List.mem_cons.mp hx with rfl | hx'
              · exact hkey
              · exact hInv.temp_keys x hx'
            order_keys := hInv.order_keys
            topo := hInv.topo
            deps_closed := hInv.deps_closed }
        have hchain1 : TempChain m (key :: st.temp) := by
          rcases hts : st.temp with _ | ⟨t, ts⟩
          · exact List.chain'_singleton key
          · refine List.chain'_cons.mpr ⟨hlink t ts hts, ?_⟩
            rw [← hts]
            exact hchain
        have hdeps1 : ∀ d ∈ m.inputsOf key, m.edge key d := fun d hd => hd
        have hfn : ∀ d stX, d ∈ m.keys → VInv m stX → TempChain m stX.temp →
            stX.temp = key :: st.temp →
            (∀ t ts, stX.temp = t :: ts → m.edge t d) →
            (∀ st', visit m fuel d stX = Except.ok st' → VisitPost m stX st' d) ∧
            ErrPost m (visit m fuel d stX) :=
          fun d stX hd hi hc _ht hl =>
            ⟨(ih d stX hd hi hc hl).1, (ih d stX hd hi hc hl).2.1⟩
        have hds := visitDeps_spec m (visit m fuel) key (key :: st.temp) hfn
          (m.inputsOf key) { st with temp := key :: st.temp } hInv1 hchain1 rfl
          ⟨st.temp, rfl⟩ hdeps1
        rcases hres : visitDeps m (visit m fuel) (m.inputsOf key) key
            { st with temp := key :: st.temp } with e | st2
        · have hval : visit m (Nat.succ fuel) key st = Except.error e := by
            rw [visit_succ, if_neg hvis, if_neg htemp, hres]
          refine ⟨?_, ⟨?_, ?_⟩, ?_⟩
          · intro st' hok
            rw [hval] at hok
            simp at hok
          · intro id h
            rw [hval] at h
            simp only [Except.error.injEq] at h
            exact hds.2.on_cycle id (by rw [hres, h])
          · intro dep k h
            rw [hval] at h
            simp only [Except.error.injEq] at h
            exact hds.2.on_unknown dep k (by rw [hres, h])
          · intro hle h
            rw [hval] at h
            simp only [Except.error.injEq] at h
            subst h
            have hnf := visitDeps_no_fuelOut m (visit m fuel) key (key :: st.temp)
              (fun d stX hd hi hc _ht hl => (ih d stX hd hi hc hl).1)
              (fun d stX hd hi hc ht hl => (ih d stX hd hi hc hl).2.2 (by
                rw [ht]
                simp only [List.length_cons]
                omega))
              (m.inputsOf key) { st with temp := key :: st.temp } hInv1 hchain1 rfl
              ⟨st.temp, rfl⟩ hdeps1
            exact hnf hres
        · have hdp := hds.1 st2 hres
          have hval : visit m (Nat.succ fuel) key st
              = Except.ok { st2 with
                  temp := st2.temp.erase key,
                  visited := key :: st2.visited,
                  order := st2.order ++ [key] } := by
            rw [visit_succ, if_neg hvis, if_neg htemp, hres]
          have hFtemp : st2.temp.erase key = st.temp := by
            rw [hdp.temp_eq]
            exact List.erase_cons_head key st.temp
          have hkeynot2 : key ∉ st2.visited := by
            intro hc
            rcases hdp.visited_new key hc with h' | h'
            · exact hvis h'
            · exact h' (List.mem_cons_self key st.temp)
          have hkeynot2o : key ∉ st2.order :=
            fun hc => hkeynot2 ((hdp.inv.visited_iff key).mpr hc)
          refine ⟨?_, ⟨?_, ?_⟩, ?_⟩
          · intro st' hok
            rw [hval] at hok
            rcases Except.ok.inj hok with rfl
            refine ⟨?_, ?_, ?_, ?_, ?_⟩
            · exact hFtemp
            · exact fun x hx => List.mem_cons_of_mem key (hdp.visited_mono x hx)
            · intro x hx
              rcases List.mem_cons.mp hx with rfl | hx'
              · exact Or.inr htemp
              · rcases hdp.visited_new x hx' with h' | h'
                · exact Or.inl h'
                · exact Or.inr (fun hc => h' (List.mem_cons_of_mem key hc))
            · exact List.mem_cons_self _ _
            · exact
                { order_nodup := by
                    simp only []
                    rw [List.nodup_append]
                    refine ⟨hdp.inv.order_nodup, List.nodup_singleton key, ?_⟩
                    intro a ha hb
                    rw [List.mem_singleton] at hb
                    subst hb
                    exact hkeynot2o ha
                  visited_iff := by
                    intro x
                    simp only [List.mem_cons, List.mem_append,
                      List.mem_singleton]
                    rw [hdp.inv.visited_iff x]
                    tauto
                  temp_not_visited := by
                    intro x hx
                    simp only [hFtemp] at hx
                    intro hc
                    rcases List.mem_cons.mp hc with rfl | hc'
                    · exact htemp hx
                    · have : x ∈ st2.temp := by
                        rw [hdp.temp_eq]
                        exact List.mem_cons_of_mem key hx
                      exact hdp.inv.temp_not_visited x this hc'
                  temp_nodup := by
                    simp only [hFtemp]
                    exact hInv.temp_nodup
                  temp_keys := by
                    simp only [hFtemp]
                    exact hInv.temp_keys
                  order_keys := by
                    intro x hx
                    simp only [List.mem_append, List.mem_singleton] at hx
                    rcases hx with hx | rfl
                    · exact hdp.inv.order_keys x hx
                    · exact hkey
                  topo := by
                    simp only []
                    apply topo_snoc m st2.order key hdp.inv.topo
                    intro b hb
                    exact (hdp.inv.visited_iff b).mp (hdp.deps_visited b hb).2
                  deps_closed := by
                    intro a ha b hb
                    simp only [List.mem_append, List.mem_singleton] at ha
                    rcases ha with ha | rfl
                    · exact hdp.inv.deps_closed a ha b hb
                    · exact (hdp.deps_visited b hb).1 }
          · intro id h
            rw [hval] at h
            simp at h
          · intro dep k h
            rw [hval] at h
            simp at h
          · intro _ h
            rw [hval] at h
            simp at h

theorem buildVisitAll_nil (m : SourceMap) (st : VisitSt) :
    buildVisitAll m [] st = Except.ok st := rfl

theorem buildVisitAll_cons (m : SourceMap) (k : String) (ks : List String)
    (st : VisitSt) :
    buildVisitAll m (k :: ks) st
      = match visit m (m.length + 1) k st with
        | Except.error e => Except.error e
        | Except.ok st' => buildVisitAll m ks st' := rfl

theorem buildVisitAll_spec (m : SourceMap) :
    ∀ ks st, (∀ k ∈ ks, k ∈ m.keys) → VInv m st → st.temp = [] →
      (∀ st', buildVisitAll m ks st = Except.ok st' →
        VInv m st' ∧ st'.temp = [] ∧ (∀ x ∈ st.visited, x ∈ st'.visited) ∧
        (∀ k ∈ ks, k ∈ st'.visited)) ∧
      ErrPost m (buildVisitAll m ks st) ∧
      buildVisitAll m ks st ≠ Except.error DagError.fuelOut := by
  intro ks
  induction ks with
  | nil =>
    intro st _ hInv htemp
    refine ⟨?_, ⟨?_, ?_⟩, ?_⟩
    · intro st' hok
      rw [buildVisitAll_nil] at hok
      rcases Except.ok.inj hok with rfl
      exact ⟨hInv, htemp, fun x hx => hx, by simp⟩
    · intro id h
      rw [buildVisitAll_nil] at h
      simp at h
    · intro dep k h
      rw [buildVisitAll_nil] at h
      simp at h
    · intro h
      rw [buildVisitAll_nil] at h
      simp at h
  | cons k ks ih =>
    intro st hks hInv htemp
    have hkey : k ∈ m.keys := hks k (List.mem_cons_self k ks)
    have hchain : TempChain m st.temp := by
      rw [htemp]
      exact List.chain'_nil
    have hlink : ∀ t ts, st.temp = t :: ts → m.edge t k := by
      intro t ts h
      rw [htemp] at h
      simp at h
    have hv := visit_spec m (m.length + 1) k st hkey hInv hchain hlink
    rcases hres : visit m (m.length + 1) k st with e | st1
    · have heq : buildVisitAll m (k :: ks) st = Except.error e := by
        rw [buildVisitAll_cons, hres]
      refine ⟨?_, ⟨?_, ?_⟩, ?_⟩
      · intro st' hok
        rw [heq] at hok
        simp at hok
      · intro id h
        rw [heq] at h
        simp only [Except.error.injEq] at h
        exact hv.2.1.on_cycle id (by rw [hres, h])
      · intro dep k' h
        rw [heq] at h
        simp only [Except.error.injEq] at h
        exact hv.2.1.on_unknown dep k' (by rw [hres, h])
      · intro h
        rw [heq] at h
        simp only [Except.error.injEq] at h
        subst h
        apply hv.2.2 ?_ hres
        rw [htemp]
        unfold SourceMap.keys
        simp [List.length_map]
    · have hpost := hv.1 st1 hres
      have htemp1 : st1.temp = [] := by
        rw [hpost.temp_eq, htemp]
      have hrec := ih st1 (fun k' hk' => hks k' (List.mem_cons_of_mem _ hk'))
        hpost.inv htemp1
      have heq : buildVisitAll m (k :: ks) st = buildVisitAll m ks st1 := by
        rw [buildVisitAll_cons, hres]
      rw [heq]
      refine ⟨?_, hrec.2.1, hrec.2.2⟩
      intro st' hok
      rcases hrec.1 st' hok with ⟨hi, ht, hm, hk2⟩
      refine ⟨hi, ht, fun x hx => hm x (hpost.visited_mono x hx), ?_⟩
      intro k' hk'
      rcases List.mem_cons.mp hk' with rfl | h'
      · exact hm k' hpost.key_visited
      · exact hk2 k' h'

theorem topo_transGen (m : SourceMap) (order : List String) (ht : TopoOK m order) :
    ∀ a b, Relation.TransGen m.edge a b → ∀ l1 l2, order = l1 ++ a :: l2 → b ∈ l1 := by
  intro a b htg
  induction htg with
  | single h =>
    intro l1 l2 hsp
    exact ht l1 a l2 hsp _ h
  | @tail bmid c htg hedge ih =>
    intro l1 l2 hsp
    have hbmem := ih l1 l2 hsp
    rcases List.append_of_mem hbmem with ⟨u, v, huv⟩
    have hsp2 : order = u ++ bmid :: (v ++ a :: l2) := by
      rw [hsp, huv]
      simp
    have hcu : c ∈ u := ht u bmid (v ++ a :: l2) hsp2 c hedge
    rw [huv]
    exact List.mem_append.mpr (Or.inl hcu)

theorem build_eq (m : SourceMap) :
    SourceDag.build m
      = match buildVisitAll m m.keys ⟨[], [], []⟩ with
        | Except.error e => Except.error e
        | Except.ok st => Except.ok st.order := rfl

theorem initial_inv (m : SourceMap) : VInv m ⟨[], [], []⟩ :=
  { order_nodup := List.nodup_nil
    visited_iff := by simp
    temp_not_visited := by simp
    temp_nodup := List.nodup_nil
    temp_keys := by simp
    order_keys := by simp
    topo := by
      intro l1 a l2 h
      exact absurd h (by simp)
    deps_closed := by simp }

/-! ## C5: DAG builder -/

/-- C5 (amended): for every source map whose ids are distinct, `build`
returns an order containing each source exactly once in which every source
appears after all transitive sources named in its `inputs` (for every
decomposition `order = l1 ++ a :: l2`, everything `a` transitively depends
on lies in `l1`); it returns an error whenever the `inputs` relation has a
cycle (a source listing itself counts) and whenever an `inputs` entry names
a source absent from the map; and when a cycle exists and no `inputs` entry
dangles, the error is a cycle error naming a source that lies on a cycle.
(When both a cycle and a dangling reference exist, the error may be of
either kind, depending on the `HashMap` iteration order — see the
counterexample.) -/
theorem C5_dag_build (m : SourceMap) (hK : m.keys.Nodup) :
    (∀ order, SourceDag.build m = Except.ok order →
      order.Nodup ∧ (∀ k, k ∈ order ↔ k ∈ m.keys) ∧
      (∀ l1 a l2, order = l1 ++ a :: l2 → ∀ b,
        Relation.TransGen m.edge a b → b ∈ l1)) ∧
    ((∃ k, Relation.TransGen m.edge k k) →
      ∃ e, SourceDag.build m = Except.error e) ∧
    (m.dangling → ∃ e, SourceDag.build m = Except.error e) ∧
    ((∃ k, Relation.TransGen m.edge k k) → ¬ m.dangling →
      ∃ id, SourceDag.build m = Except.error (DagError.cycle id) ∧
        Relation.TransGen m.edge id id) := by
  have hspec := buildVisitAll_spec m m.keys ⟨[], [], []⟩ (fun k hk => hk)
    (initial_inv m) rfl
  rcases hres : buildVisitAll m m.keys ⟨[], [], []⟩ with e | stF
  · have hbe : SourceDag.build m = Except.error e := by
      rw [build_eq, hres]
    refine ⟨?_, fun _ => ⟨e, hbe⟩, fun _ => ⟨e, hbe⟩, ?_⟩
    · intro order hok
      rw [hbe] at hok
      simp at hok
    · intro _ hdang
      rcases e with id | ⟨dep, k⟩ | _
      · exact ⟨id, hbe, hspec.2.1.on_cycle id (by rw [hres])⟩
      · exfalso
        rcases hspec.2.1.on_unknown dep k (by rw [hres]) with ⟨hedge, hnot⟩
        rcases edge_inputs hedge with ⟨ins, hl, hdin⟩
        exact hdang ⟨(k, some ins), lookup_mem hl, dep, by simpa using hdin, hnot⟩
      · exact absurd (by rw [hres]) hspec.2.2
  · have hall := hspec.1 stF hres
    have hbo : SourceDag.build m = Except.ok stF.order := by
      rw [build_eq, hres]
    have hmem_iff : ∀ k, k ∈ stF.order ↔ k ∈ m.keys := by
      intro k
      constructor
      · exact hall.1.order_keys k
      · intro hk
        exact (hall.1.visited_iff k).mp (hall.2.2.2 k hk)
    have hcyc_false : ¬ ∃ k, Relation.TransGen m.edge k k := by
      rintro ⟨k, hcyc⟩
      have hkK : k ∈ m.keys := by
        rcases Relation.TransGen.head'_iff.mp hcyc with ⟨c, h, _⟩
        exact edge_mem_keys h
      have hkord : k ∈ stF.order := (hmem_iff k).mpr hkK
      rcases List.append_of_mem hkord with ⟨l1, l2, hsp⟩
      have hin : k ∈ l1 := topo_transGen m stF.order hall.1.topo k k hcyc l1 l2 hsp
      have hdisj := List.disjoint_of_nodup_append (by rw [← hsp]; exact hall.1.order_nodup)
      exact hdisj hin (List.mem_cons_self k l2)
    refine ⟨?_, fun hc => absurd hc hcyc_false, ?_, fun hc => absurd hc hcyc_false⟩
    · intro order hok
      rw [hbo] at hok
      rcases Except.ok.inj hok with rfl
      exact ⟨hall.1.order_nodup, hmem_iff,
        fun l1 a l2 hsp b htg => topo_transGen m stF.order hall.1.topo a b htg l1 l2 hsp⟩
    · rintro ⟨p, hpm, d, hd, hdnot⟩
      exfalso
      rcases p with ⟨k, opt⟩
      rcases opt with _ | ins
      · simp at hd
      · have hlk : m.lookup k = some (some ins) := lookup_some_of_mem_nodup hK hpm
        have hedge : m.edge k d := edge_of_inputs hlk (by simpa using hd)
        have hkK : k ∈ m.keys := by
          unfold SourceMap.keys
          exact List.mem_map_of_mem Prod.fst hpm
        have hkord : k ∈ stF.order := (hmem_iff k).mpr hkK
        exact hdnot (hall.1.deps_closed k hkord d hedge)

/-- C5 witness: the map `A → A` (self-reference) has distinct ids and a
cycle but no dangling reference — `build` reports a cycle error naming a
source on a cycle. -/
theorem C5_dag_build_witness :
    ∃ id, SourceDag.build [("A", some ["A"])]
        = Except.error (DagError.cycle id) ∧
      Relation.TransGen (SourceMap.edge [("A", some ["A"])]) id id :=
  (C5_dag_build [("A", some ["A"])] (by decide)).2.2.2
    ⟨"A", Relation.TransGen.single (by decide)⟩ (by decide)

/-- C5 counterexample: the map `{B → Z (absent), A → A (cycle)}`, iterated
with `B` first (`HashMap` iteration order is unspecified), contains a cycle
through `A` — the only source on any cycle — yet `build` returns the
dangling-reference error for `Z`, not an error naming the offending id of
the cycle; so "returns an error naming the offending id when the inputs
relation has a cycle" fails as stated. -/
theorem C5_dag_build_cex :
    SourceDag.build [("B", some ["Z"]), ("A", some ["A"])]
      = Except.error (DagError.unknownDep "Z" "B") ∧
    Relation.TransGen (SourceMap.edge [("B", some ["Z"]), ("A", some ["A"])])
      "A" "A" ∧
    DagError.unknownDep "Z" "B" ≠ DagError.cycle "A" :=
  ⟨rfl, Relation.TransGen.single (by decide), by decide⟩

end TokenAgent
